import Mathlib

/-!
Verification development for the lspls schema-to-code generator.

The Go sources are shallowly embedded:

* `Ty` mirrors `model.Type` (internal/model/model.go).  The Go struct is a
  product carrying every kind-specific field at once; since every consumer
  reads only the fields belonging to the node's `Kind` (the documented
  invariant of the schema), we embed it as a sum with one constructor per
  kind.  Single `*Type` pointers become `Option Ty` (`none` = nil); slices
  of `*Type` become `List Ty` (elements assumed non-nil, as produced by the
  parser for well-shaped documents).
* Pure string-producing generator methods (`goType`, `getOrType`,
  `typeNameForIdent`, their Groovy and Kotlin counterparts) become Lean
  functions parameterised by the per-run generator context (the
  `IncludeProposed` flag and the `proposedTypes` cache).
* The run-scoped registration tables (`orderedMap.set`, `pendingWrappers`)
  become association lists with an insert-if-absent operation.
* `generator.ResolveDeps` / `collectDeps` / `collectTypeRefs`
  (generator/resolve.go) become mutually recursive functions threading the
  visited set, with termination established by well-founded recursion on
  the number of unvisited model names.
* `model.Type.UnmarshalJSON` becomes a function over an inductive `Json`
  value (a parsed, well-formed JSON document; byte-level malformed input
  fails before this function and is outside the embedding).
-/

/-- Embedding of `model.Type`: the schema's polymorphic type node.
A `literal` node carries its `model.Literal.Properties` payload as tuples
(name, type, `Optional` flag, `Proposed` flag); the remaining
documentation/since/line fields are never read by any embedded consumer
and are omitted.
`other k` represents a node whose `Kind` string `k` is none of the nine
recognised kinds (constructible in Go, rejected by the parser). -/
inductive Ty where
  | base (name : String)
  | reference (name : String)
  | array (element : Option Ty)
  | mapT (key : Option Ty) (value : Option Ty)
  | literal (props : List (String × Option Ty × Bool × Bool))
  | stringLiteral
  | or (items : List Ty)
  | andT (items : List Ty)
  | tuple (items : List Ty)
  | other (kind : String)

namespace Ty

/-- The `Kind` discriminator string of a node, as stored in Go's
`Type.Kind` field. -/
def kind : Ty → String
  | .base _ => "base"
  | .reference _ => "reference"
  | .array _ => "array"
  | .mapT _ _ => "map"
  | .literal _ => "literal"
  | .stringLiteral => "stringLiteral"
  | .or _ => "or"
  | .andT _ => "and"
  | .tuple _ => "tuple"
  | .other k => k

/-- The `Name` field of a node (empty for kinds that do not populate it). -/
def name : Ty → String
  | .base n => n
  | .reference n => n
  | _ => ""

/-- The `Items` field of a node (empty for kinds that do not populate it). -/
def items : Ty → List Ty
  | .or l => l
  | .andT l => l
  | .tuple l => l
  | _ => []

/-- Whether a node is the null base type (`item.Kind == "base" && item.Name == "null"`). -/
def isNullBase : Ty → Bool
  | .base n => n == "null"
  | _ => false

/-- Embedding of `model.Type.IsOptional` (model.go lines 269-279):
a two-item `or` containing the null base type. -/
def IsOptional (t : Ty) : Bool :=
  if t.kind != "or" || t.items.length != 2 then false
  else t.items.any isNullBase

/-- Embedding of `model.Type.NonNullType` (model.go lines 281-293): the
first non-null component of an optional type, `none` when the receiver is
not optional (or, degenerately, when both items are null). -/
def NonNullType (t : Ty) : Option Ty :=
  if !t.IsOptional then none
  else t.items.find? (fun item => !item.isNullBase)

end Ty

namespace lspbase

/-- Embedding of `lspbase.ExportName` (internal/lspbase/names.go): names
starting with an underscore get an `X` prefix, all other names get their
first character uppercased.  Character-level (Go operates on runes for the
capitalisation; the leading-underscore test is a byte test, and the two
agree on every character). -/
def ExportName (s : String) : String :=
  match s.data with
  | [] => ""
  | c :: rest => if c = '_' then ⟨'X' :: rest⟩ else ⟨c.toUpper :: rest⟩

/-- Embedding of `lspbase.Capitalize` (names.go): first character
uppercased, empty string unchanged. -/
def Capitalize (s : String) : String :=
  match s.data with
  | [] => ""
  | c :: rest => ⟨c.toUpper :: rest⟩

end lspbase

/-- `sizeOf` of a filtered list never exceeds `sizeOf` of the list. -/
theorem sizeOf_filter_le [SizeOf α] (p : α → Bool) (l : List α) :
    sizeOf (l.filter p) ≤ sizeOf l := by
  induction l with
  | nil => simp [List.filter]
  | cons a l ih =>
    simp only [List.filter]
    cases p a <;> (simp; omega)

/-- Every `Ty` has positive size. -/
theorem Ty.one_le_sizeOf (t : Ty) : 1 ≤ sizeOf t := by
  cases t <;> (simp; try omega)

/-- Every list has positive size. -/
theorem one_le_sizeOf_list [SizeOf α] (l : List α) : 1 ≤ sizeOf l := by
  cases l <;> (simp; try omega)

/-- The non-null component of an optional node is one of its items. -/
theorem Ty.nonNullType_mem {t inner : Ty} (h : t.NonNullType = some inner) :
    inner ∈ t.items := by
  unfold Ty.NonNullType at h
  split at h
  · exact absurd h (by simp)
  · exact List.mem_of_find?_eq_some h

/-- The size of the non-null component is below the node's own size. -/
theorem Ty.sizeOf_nonNullType_lt (t : Ty) : sizeOf t.NonNullType < 1 + sizeOf t := by
  cases h : t.NonNullType with
  | none =>
    have := t.one_le_sizeOf
    simp
    omega
  | some inner =>
    have hm : inner ∈ t.items := Ty.nonNullType_mem h
    cases t <;> simp [Ty.items] at hm ⊢ <;>
      (have hsz := List.sizeOf_lt_of_mem hm; omega)

/-- Embedding of Go's `strings.Join`: concatenate with a separator
between consecutive elements. -/
def joinSep (sep : String) : List String → String
  | [] => ""
  | [x] => x
  | x :: rest => x ++ sep ++ joinSep sep rest

/-- Embedding of the guarded `orderedMap.set` registration step used by
every backend's run-scoped table (e.g. golang/types.go lines 304-310 with
orderedmap.go `set`, and proto's `pendingWrappers`): insert the entry only
when the key is not yet present, appending in insertion order. -/
def registerOnce (tbl : List (String × β)) (key : String) (val : β) :
    List (String × β) :=
  if (tbl.lookup key).isSome then tbl else tbl ++ [(key, val)]

namespace golang

/-- Embedding of `Generator.goBaseType` (generators/golang/types.go lines
183-203), as a function of the node's `Name` field; the `nil` receiver
case is handled at call sites through `Option`. -/
def goBaseTypeName (name : String) : String :=
  if name == "string" || name == "URI" || name == "DocumentUri" then "string"
  else if name == "integer" then "int32"
  else if name == "uinteger" then "uint32"
  else if name == "decimal" then "float64"
  else if name == "boolean" then "bool"
  else if name == "null" || name == "LSPAny" then "any"
  else "any"

/-- `goBaseType` on an optional node pointer (`nil` yields `any`). -/
def goBaseType : Option Ty → String
  | none => "any"
  | some t => goBaseTypeName t.name

/-- The per-run generator context: the `IncludeProposed` configuration
flag and the `proposedTypes` cache (`Generator.isProposed`). -/
structure Ctx where
  includeProposed : Bool
  proposed : String → Bool

/-- Embedding of `Generator.typeNameForIdent` (types.go lines 208-242):
identifier-safe name used in `Or_*` union type names.  The map case
collapses Go's typed-nil check (`typeNameForIdent(nil) = "any"` equals the
`"any"` default taken when the value is not a type). -/
def typeNameForIdent : Option Ty → String
  | none => "any"
  | some t =>
    match t with
    | .base n => goBaseTypeName n
    | .reference n => lspbase.ExportName n
    | .array e => "Arr" ++ typeNameForIdent e
    | .mapT k v => "Map" ++ typeNameForIdent k ++ typeNameForIdent v
    | .literal _ => "Literal"
    | .stringLiteral => "string"
    | .or _ => "Union"
    | .andT _ => "Intersection"
    | .tuple _ => "Tuple"
    | .other _ => "any"

/-- The filter applied to union items in `getOrType`: drop null items,
and, when `IncludeProposed` is off, reference items to proposed types. -/
def orItemKeep (cfg : Ctx) (item : Ty) : Bool :=
  !item.isNullBase &&
    !(!cfg.includeProposed && item.kind == "reference" && cfg.proposed item.name)

mutual

/-- Embedding of `Generator.goType` (types.go lines 129-181).  The Go
method's second parameter is ignored by the source and dropped here; the
map-value typed-nil collapse is as in `typeNameForIdent`. -/
def goType (cfg : Ctx) : Option Ty → String
  | none => "any"
  | some t =>
    if t.IsOptional then "*" ++ goType cfg t.NonNullType
    else
      match t with
      | .base n => goBaseTypeName n
      | .reference n => lspbase.ExportName n
      | .array e => "[]" ++ goType cfg e
      | .mapT k v => "map[" ++ goType cfg k ++ "]" ++ goType cfg v
      | .literal _ => "any"
      | .stringLiteral => "string"
      | .or l => getOrType cfg (Ty.or l)
      | .andT _ => "any"
      | .tuple _ => "[]any"
      | .other _ => "any"
termination_by t => sizeOf t
decreasing_by
all_goals simp_wf
all_goals try omega
all_goals (have hsz := Ty.sizeOf_nonNullType_lt t; omega)

/-- Embedding of `Generator.getOrType` (types.go lines 246-313), the part
computing the returned type name.  The `t.Kind != "or"` guard of the
source is rendered by the match (a node whose `Kind` is `"or"` is an `or`
node or has no items, in which case both return `"any"`); `slices.SortFunc`
with `cmp.Compare` on the identifier-safe name is modelled by a stable
merge sort on the same key, which agrees on the key sequence.  The
registration side effect on `orTypes` is modelled by `registerOnce`
below. -/
def getOrType (cfg : Ctx) (t : Ty) : String :=
  match t with
  | .or itemList =>
    if itemList.length == 0 then "any"
    else
      let nonNullItems := itemList.filter (orItemKeep cfg)
      match h : nonNullItems with
      | [single] => goType cfg (some single)
      | [] => "any"
      | _ =>
        let pairs := goPairs cfg nonNullItems
        let sorted := pairs.mergeSort (fun a b => a.1 ≤ b.1)
        let identNames := sorted.map (fun p => p.1)
        "Or_" ++ joinSep "_" identNames
  | _ => "any"
termination_by sizeOf t
decreasing_by
all_goals simp_wf
· have hmem : single ∈ itemList := by
    have hf : single ∈ List.filter (orItemKeep cfg) itemList := by
      rw [show List.filter (orItemKeep cfg) itemList = [single] from h]
      exact List.mem_singleton.mpr rfl
    exact List.mem_of_mem_filter hf
  exact List.sizeOf_lt_of_mem hmem
· have := sizeOf_filter_le (orItemKeep cfg) itemList
  omega

/-- The loop of `getOrType` building `(identName, goType)` pairs for each
union item (types.go lines 275-286). -/
def goPairs (cfg : Ctx) : List Ty → List (String × String)
  | [] => []
  | item :: rest =>
    (typeNameForIdent (some item), goType cfg (some item)) :: goPairs cfg rest
termination_by l => sizeOf l
decreasing_by
all_goals simp_wf
all_goals (have hsz := one_le_sizeOf_list rest; omega)

end

/-- The union-type registry entry (`orTypeInfo`, golang/types.go): the
generated name and the sorted member Go types. -/
structure OrTypeInfo where
  name : String
  itemNames : List String

/-- The registration effect of `Generator.getOrType` on the run-scoped
`orTypes` table, for the node itself: in the branch that synthesizes a
union wrapper, the entry is registered under the computed name unless
already present; every other branch leaves the table unchanged.
(Registrations performed for unions nested inside the items compose by
further applications.) -/
def getOrRegister (cfg : Ctx) (t : Ty) (tbl : List (String × OrTypeInfo)) :
    List (String × OrTypeInfo) :=
  match t with
  | .or itemList =>
    if itemList.length == 0 then tbl
    else
      let nonNullItems := itemList.filter (orItemKeep cfg)
      match nonNullItems with
      | [_] => tbl
      | [] => tbl
      | _ =>
        let pairs := goPairs cfg nonNullItems
        let sorted := pairs.mergeSort (fun a b => a.1 ≤ b.1)
        let identNames := sorted.map (fun p => p.1)
        let itemNames := sorted.map (fun p => p.2)
        let typeName := "Or_" ++ joinSep "_" identNames
        registerOnce tbl typeName ⟨typeName, itemNames⟩
  | _ => tbl

end golang

/-- Embedding of Go's `slices.CompactFunc` applied to a sorted slice:
replace each run of consecutive elements equal under `eq` by its first
element.  `last` is the most recently kept element. -/
def compactTail (eq : α → α → Bool) (last : α) : List α → List α
  | [] => []
  | b :: rest => if eq last b then compactTail eq last rest else b :: compactTail eq b rest

/-- `slices.CompactFunc`: keep the first element of every consecutive
run. -/
def compactBy (eq : α → α → Bool) : List α → List α
  | [] => []
  | a :: rest => a :: compactTail eq a rest

namespace groovy

/-- The per-run Groovy generator context: `IncludeProposed`, the
`proposedTypes` cache, and the package-level `DefaultMappings` table
(whose declaration is not among the provided sources; it is treated as an
opaque lookup, which no theorem below depends on). -/
structure Ctx where
  includeProposed : Bool
  proposed : String → Bool
  defaultMappings : String → Option String

/-- Embedding of `groovyBaseType` (generators/groovy/codegen.go lines
701-724), on the node's `Name`. -/
def groovyBaseTypeName (name : String) : String :=
  if name == "string" || name == "URI" || name == "DocumentUri" || name == "RegExp" then "String"
  else if name == "integer" then "int"
  else if name == "uinteger" then "int"
  else if name == "decimal" then "double"
  else if name == "boolean" then "boolean"
  else if name == "null" then "Void"
  else if name == "LSPAny" then "Object"
  else if name == "LSPObject" then "Map<String, Object>"
  else if name == "LSPArray" then "List<Object>"
  else "Object"

/-- Embedding of `groovyIdentBaseType` (codegen.go lines 761-786). -/
def groovyIdentBaseType (name : String) : String :=
  if name == "string" || name == "URI" || name == "DocumentUri" || name == "RegExp" then "String"
  else if name == "integer" then "Integer"
  else if name == "uinteger" then "Integer"
  else if name == "decimal" then "Double"
  else if name == "boolean" then "Boolean"
  else if name == "null" then "Void"
  else if name == "LSPAny" then "Object"
  else if name == "LSPObject" then "MapStringObject"
  else if name == "LSPArray" then "ListObject"
  else "Object"

/-- Embedding of the Groovy `Codegen.typeNameForIdent` (codegen.go lines
727-758). -/
def typeNameForIdent : Option Ty → String
  | none => "Object"
  | some t =>
    match t with
    | .base n => groovyIdentBaseType n
    | .reference n => lspbase.ExportName n
    | .array e => "Arr" ++ typeNameForIdent e
    | .mapT k v => "Map" ++ typeNameForIdent k ++ typeNameForIdent v
    | .literal _ => "Literal"
    | .stringLiteral => "String"
    | .or _ => "Union"
    | .andT _ => "Intersection"
    | .tuple _ => "Tuple"
    | .other _ => "Object"

/-- The union-item filter of the Groovy `getOrType` (null items, and
proposed reference targets when `IncludeProposed` is off). -/
def orItemKeep (cfg : Ctx) (item : Ty) : Bool :=
  !item.isNullBase &&
    !(!cfg.includeProposed && item.kind == "reference" && cfg.proposed item.name)

mutual

/-- Embedding of `Codegen.groovyType` (codegen.go lines 643-655).  The
`nullable` parameter of the Go method is never read and is dropped. -/
def groovyType (cfg : Ctx) : Option Ty → String
  | none => "Object"
  | some t =>
    if t.IsOptional then groovyType cfg t.NonNullType
    else groovyTypeInner cfg t
termination_by t => (sizeOf t, 0)
decreasing_by
all_goals simp_wf
· exact Prod.Lex.left _ _ (Ty.sizeOf_nonNullType_lt t)
· exact Prod.Lex.left _ _ (by omega)

/-- Embedding of `Codegen.groovyTypeInner` (codegen.go lines 658-699). -/
def groovyTypeInner (cfg : Ctx) (t : Ty) : String :=
  match t with
  | .base n => groovyBaseTypeName n
  | .reference n =>
    match cfg.defaultMappings n with
    | some mapped => mapped
    | none => lspbase.ExportName n
  | .array e => "List<" ++ groovyType cfg e ++ ">"
  | .mapT k v => "Map<" ++ groovyType cfg k ++ ", " ++ groovyType cfg v ++ ">"
  | .literal _ => "Object"
  | .stringLiteral => "String"
  | .or l => getOrType cfg (Ty.or l)
  | .andT _ => "Object"
  | .tuple _ => "List<Object>"
  | .other _ => "Object"
termination_by (sizeOf t, 1)
decreasing_by
all_goals simp_wf
· exact Prod.Lex.left _ _ (by omega)
· exact Prod.Lex.left _ _ (by omega)
· exact Prod.Lex.left _ _ (by omega)
· exact Prod.Lex.right _ (by omega)

/-- Embedding of the Groovy `Codegen.getOrType` (codegen.go lines
796-858), the returned type name.  Unlike the Go and Kotlin backends it
deduplicates sorted pairs whose identifier-safe names collide
(`slices.CompactFunc`) and unwraps a single surviving pair. -/
def getOrType (cfg : Ctx) (t : Ty) : String :=
  match t with
  | .or itemList =>
    if itemList.length == 0 then "Object"
    else
      let nonNullItems := itemList.filter (orItemKeep cfg)
      match h : nonNullItems with
      | [] => "Object"
      | [single] => groovyType cfg (some single)
      | _ =>
        let pairs := grPairs cfg nonNullItems
        let sorted := pairs.mergeSort (fun a b => a.1 ≤ b.1)
        let deduped := compactBy (fun a b => a.1 == b.1) sorted
        match deduped with
        | [p] => p.2
        | _ =>
          let identNames := deduped.map (fun p => p.1)
          "Or_" ++ joinSep "_" identNames
  | _ => "Object"
termination_by (sizeOf t, 0)
decreasing_by
all_goals simp_wf
· have hmem : single ∈ itemList := by
    have hf : single ∈ List.filter (orItemKeep cfg) itemList := by
      rw [show List.filter (orItemKeep cfg) itemList = [single] from h]
      exact List.mem_singleton.mpr rfl
    exact List.mem_of_mem_filter hf
  have := List.sizeOf_lt_of_mem hmem
  exact Prod.Lex.left _ _ (by omega)
· have := sizeOf_filter_le (orItemKeep cfg) itemList
  exact Prod.Lex.left _ _ (by omega)

/-- The pair-building loop of the Groovy `getOrType` (identifier-safe
name, Groovy type). -/
def grPairs (cfg : Ctx) : List Ty → List (String × String)
  | [] => []
  | item :: rest =>
    (typeNameForIdent (some item), groovyType cfg (some item)) :: grPairs cfg rest
termination_by l => (sizeOf l, 0)
decreasing_by
all_goals simp_wf
all_goals
  (have h1 := one_le_sizeOf_list rest
   have h2 := Ty.one_le_sizeOf item
   exact Prod.Lex.left _ _ (by omega))

end

end groovy

namespace kotlin

/-- The per-run Kotlin generator context (`IncludeProposed` and the
`proposedTypes` cache). -/
structure Ctx where
  includeProposed : Bool
  proposed : String → Bool

/-- Embedding of the Kotlin package's `DefaultMappings` table
(generators/kotlin config source): type aliases collapsed to a well-known
Kotlin type. -/
def DefaultMappings (name : String) : Option String :=
  if name == "DocumentUri" || name == "URI" || name == "ChangeAnnotationIdentifier"
      || name == "Pattern" || name == "GlobPattern"
      || name == "RegularExpressionEngineKind" || name == "ProgressToken"
      || name == "DocumentSelector" then
    some "String"
  else none

/-- Embedding of `kotlinBaseType` (generators/kotlin/types.go lines
84-107), on the node's `Name`. -/
def kotlinBaseTypeName (name : String) : String :=
  if name == "string" || name == "URI" || name == "DocumentUri" || name == "RegExp" then "String"
  else if name == "integer" then "Int"
  else if name == "uinteger" then "UInt"
  else if name == "decimal" then "Double"
  else if name == "boolean" then "Boolean"
  else if name == "null" then "Nothing?"
  else if name == "LSPAny" then "Any?"
  else if name == "LSPObject" then "Map<String, Any?>"
  else if name == "LSPArray" then "List<Any?>"
  else "Any"

/-- Embedding of the Kotlin `Codegen.typeNameForIdent` (types.go lines
109-142). -/
def typeNameForIdent : Option Ty → String
  | none => "Any"
  | some t =>
    match t with
    | .base n => kotlinBaseTypeName n
    | .reference n => lspbase.ExportName n
    | .array e => "Arr" ++ typeNameForIdent e
    | .mapT k v => "Map" ++ typeNameForIdent k ++ typeNameForIdent v
    | .literal _ => "Literal"
    | .stringLiteral => "String"
    | .or _ => "Union"
    | .andT _ => "Intersection"
    | .tuple _ => "Tuple"
    | .other _ => "Any"

/-- The union-item filter of the Kotlin `getOrType`. -/
def orItemKeep (cfg : Ctx) (item : Ty) : Bool :=
  !item.isNullBase &&
    !(!cfg.includeProposed && item.kind == "reference" && cfg.proposed item.name)

mutual

/-- Embedding of `Codegen.kotlinType` (types.go lines 19-37): `nullable`
appends a trailing question mark to the outermost type; `T | null`
becomes the inner type with a question mark. -/
def kotlinType (cfg : Ctx) (t : Option Ty) (nullable : Bool) : String :=
  match t with
  | none => "Any"
  | some t =>
    if t.IsOptional then kotlinType cfg t.NonNullType false ++ "?"
    else
      let base := kotlinTypeInner cfg t
      if nullable then base ++ "?" else base
termination_by (sizeOf t, 0)
decreasing_by
all_goals simp_wf
· exact Prod.Lex.left _ _ (Ty.sizeOf_nonNullType_lt _)
· exact Prod.Lex.left _ _ (by omega)

/-- Embedding of `Codegen.kotlinTypeInner` (types.go lines 40-81). -/
def kotlinTypeInner (cfg : Ctx) (t : Ty) : String :=
  match t with
  | .base n => kotlinBaseTypeName n
  | .reference n =>
    match DefaultMappings n with
    | some mapped => mapped
    | none => lspbase.ExportName n
  | .array e => "List<" ++ kotlinType cfg e false ++ ">"
  | .mapT k v => "Map<" ++ kotlinType cfg k false ++ ", " ++ kotlinType cfg v false ++ ">"
  | .literal _ => "Any"
  | .stringLiteral => "String"
  | .or l => getOrType cfg (Ty.or l)
  | .andT _ => "Any"
  | .tuple _ => "List<Any>"
  | .other _ => "Any"
termination_by (sizeOf t, 1)
decreasing_by
all_goals simp_wf
· exact Prod.Lex.left _ _ (by omega)
· exact Prod.Lex.left _ _ (by omega)
· exact Prod.Lex.left _ _ (by omega)
· exact Prod.Lex.right _ (by omega)

/-- Embedding of the Kotlin `Codegen.getOrType` (types.go lines 152-204),
the returned type name.  Like the Go backend (and unlike Groovy) it sorts
the pairs but does not deduplicate colliding identifier-safe names. -/
def getOrType (cfg : Ctx) (t : Ty) : String :=
  match t with
  | .or itemList =>
    if itemList.length == 0 then "Any"
    else
      let nonNullItems := itemList.filter (orItemKeep cfg)
      match h : nonNullItems with
      | [] => "Any"
      | [single] => kotlinType cfg (some single) false
      | _ =>
        let pairs := ktPairs cfg nonNullItems
        let sorted := pairs.mergeSort (fun a b => a.1 ≤ b.1)
        let identNames := sorted.map (fun p => p.1)
        "Or_" ++ joinSep "_" identNames
  | _ => "Any"
termination_by (sizeOf t, 0)
decreasing_by
all_goals simp_wf
· have hmem : single ∈ itemList := by
    have hf : single ∈ List.filter (orItemKeep cfg) itemList := by
      rw [show List.filter (orItemKeep cfg) itemList = [single] from h]
      exact List.mem_singleton.mpr rfl
    exact List.mem_of_mem_filter hf
  have := List.sizeOf_lt_of_mem hmem
  exact Prod.Lex.left _ _ (by omega)
· have := sizeOf_filter_le (orItemKeep cfg) itemList
  exact Prod.Lex.left _ _ (by omega)

/-- The pair-building loop of the Kotlin `getOrType`. -/
def ktPairs (cfg : Ctx) : List Ty → List (String × String)
  | [] => []
  | item :: rest =>
    (typeNameForIdent (some item), kotlinType cfg (some item) false) :: ktPairs cfg rest
termination_by l => (sizeOf l, 0)
decreasing_by
all_goals simp_wf
all_goals
  (have h1 := one_le_sizeOf_list rest
   have h2 := Ty.one_le_sizeOf item
   exact Prod.Lex.left _ _ (by omega))

end

end kotlin

/-- A parsed JSON value.  `model.Type.UnmarshalJSON` receives the raw
bytes of one such value; byte-level malformed documents fail inside
`encoding/json` before the embedded logic runs and are outside the
embedding.  Objects are association lists (duplicate keys, for which Go
keeps the last occurrence, are assumed absent, as in any real schema
document). -/
inductive Json where
  | null
  | bool (b : Bool)
  | num (n : Int)
  | str (s : String)
  | arr (elems : List Json)
  | obj (fields : List (String × Json))

/-- A looked-up field value is smaller than the field list holding it. -/
theorem sizeOf_lookup_lt {fields : List (String × Json)} {k : String} {j : Json}
    (h : fields.lookup k = some j) : sizeOf j < sizeOf fields := by
  induction fields with
  | nil => simp [List.lookup] at h
  | cons p rest ih =>
    obtain ⟨k', v⟩ := p
    rw [List.lookup] at h
    by_cases hk : (k == k') = true
    · rw [hk] at h
      simp at h
      subst h
      simp
      omega
    · rw [Bool.eq_false_iff.mpr hk] at h
      have := ih h
      simp
      omega

/-- Result discriminator for `Except` (the Go convention `err == nil`). -/
def okB : Except ε α → Bool
  | .ok _ => true
  | .error _ => false

namespace parse

/-- `json.Unmarshal` into a Go `string` field: missing and `null` leave
the zero value; a JSON string decodes; anything else is an error. -/
def decodeStringField (fields : List (String × Json)) (k : String) :
    Except String String :=
  match fields.lookup k with
  | none => .ok ""
  | some .null => .ok ""
  | some (.str s) => .ok s
  | some _ => .error ("cannot unmarshal into string field " ++ k)

/-- `json.Unmarshal` into a Go `int` field. -/
def decodeIntField (fields : List (String × Json)) (k : String) :
    Except String Int :=
  match fields.lookup k with
  | none => .ok 0
  | some .null => .ok 0
  | some (.num n) => .ok n
  | some _ => .error ("cannot unmarshal into int field " ++ k)

/-- `json.Unmarshal` into a Go `bool` field. -/
def decodeBoolField (fields : List (String × Json)) (k : String) :
    Except String Bool :=
  match fields.lookup k with
  | none => .ok false
  | some .null => .ok false
  | some (.bool b) => .ok b
  | some _ => .error ("cannot unmarshal into bool field " ++ k)

/-- An absent or present field value is no bigger than the field list. -/
theorem sizeOf_lookup_le (fields : List (String × Json)) (k : String) :
    sizeOf (fields.lookup k) ≤ sizeOf fields := by
  cases h : fields.lookup k with
  | none =>
    have := one_le_sizeOf_list fields
    simp
    omega
  | some j =>
    have := sizeOf_lookup_lt h
    simp
    omega

mutual

/-- Embedding of `model.Type.UnmarshalJSON` (internal/model/model.go
lines 212-266).  First pass: decode the kind-independent fields of the
raw struct (`kind`, `items`, `element`, `name`, `key`, `line`; the shared
`value` payload decodes into `any` and cannot fail).  Go decodes fields
in document order and stops at the first failure; the embedding decodes
in a fixed order, which agrees on whether decoding fails.  Second pass:
dispatch on the kind tag — `map` and `literal` re-decode the shared
payload into their expected shapes, the remaining seven recognised kinds
need no special handling, and any other kind is an error
(`unknown type kind`).  Each Go field decode `f.Field` appears as a
helper applied to the looked-up field value. -/
def unmarshalType (j : Json) : Except String Ty :=
  match j with
  | .obj fields => do
    let kind ← decodeStringField fields "kind"
    let itemsL ← decodeItemsOpt (fields.lookup "items")
    let element ← decodeTypeOpt (fields.lookup "element")
    let nameF ← decodeStringField fields "name"
    let _key ← decodeTypeOpt (fields.lookup "key")
    let _line ← decodeIntField fields "line"
    if kind == "map" then do
      let key2 ← decodeTypeOpt (fields.lookup "key")
      let value2 ← decodeTypeOpt (fields.lookup "value")
      .ok (Ty.mapT key2 value2)
    else if kind == "literal" then do
      let props ← decodeLiteralOpt (fields.lookup "value")
      .ok (Ty.literal props)
    else if kind == "base" then .ok (Ty.base nameF)
    else if kind == "reference" then .ok (Ty.reference nameF)
    else if kind == "array" then .ok (Ty.array element)
    else if kind == "and" then .ok (Ty.andT itemsL)
    else if kind == "or" then .ok (Ty.or itemsL)
    else if kind == "tuple" then .ok (Ty.tuple itemsL)
    else if kind == "stringLiteral" then .ok Ty.stringLiteral
    else .error ("unknown type kind: " ++ kind)
  | _ => .error "cannot unmarshal into Type"
termination_by sizeOf j
decreasing_by
all_goals simp_wf
all_goals
  (first
   | omega
   | (have hsz := sizeOf_lookup_le fields "items"; omega)
   | (have hsz := sizeOf_lookup_le fields "element"; omega)
   | (have hsz := sizeOf_lookup_le fields "key"; omega)
   | (have hsz := sizeOf_lookup_le fields "value"; omega))

/-- `json.Unmarshal` of a field value into a Go `*model.Type`: missing
and `null` leave the nil pointer; otherwise the value must unmarshal as a
type node. -/
def decodeTypeOpt (o : Option Json) : Except String (Option Ty) :=
  match o with
  | none => .ok none
  | some .null => .ok none
  | some j => (unmarshalType j).map some
termination_by sizeOf o
decreasing_by
all_goals simp_wf
all_goals omega

/-- `json.Unmarshal` of a field value into the Go `[]*model.Type` items
slice: missing and `null` leave the nil slice; otherwise an array of type
nodes.  (A `null` array element would produce a nil pointer in Go; such
documents are outside the modelled fragment, see the `Ty` docstring.) -/
def decodeItemsOpt (o : Option Json) : Except String (List Ty) :=
  match o with
  | none => .ok []
  | some .null => .ok []
  | some (.arr elems) => decodeTypeList elems
  | some _ => .error "cannot unmarshal into items"
termination_by sizeOf o
decreasing_by
all_goals simp_wf
all_goals omega

/-- Element-wise decoding of an array of type nodes (first failure
aborts, as in `encoding/json`). -/
def decodeTypeList (l : List Json) : Except String (List Ty) :=
  match l with
  | [] => .ok []
  | j :: rest => do
    let t ← unmarshalType j
    let ts ← decodeTypeList rest
    .ok (t :: ts)
termination_by sizeOf l
decreasing_by
all_goals simp_wf
all_goals omega

/-- The `literal` second pass (model.go lines 249-256) on the shared
`value` payload: it must decode into `model.Literal` — an object whose
`properties` field is a list of properties. -/
def decodeLiteralOpt (o : Option Json) :
    Except String (List (String × Option Ty × Bool × Bool)) :=
  match o with
  | none => .ok []
  | some .null => .ok []
  | some (.obj lfields) => decodePropsOpt (lfields.lookup "properties")
  | some _ => .error "cannot unmarshal into Literal"
termination_by sizeOf o
decreasing_by
all_goals simp_wf
have := sizeOf_lookup_le lfields "properties"
omega

/-- Decoding of a literal's `properties` field value. -/
def decodePropsOpt (o : Option Json) :
    Except String (List (String × Option Ty × Bool × Bool)) :=
  match o with
  | none => .ok []
  | some .null => .ok []
  | some (.arr elems) => decodePropList elems
  | some _ => .error "cannot unmarshal literal properties"
termination_by sizeOf o
decreasing_by
all_goals simp_wf
all_goals omega

/-- Element-wise decoding of a literal's property list. -/
def decodePropList (l : List Json) :
    Except String (List (String × Option Ty × Bool × Bool)) :=
  match l with
  | [] => .ok []
  | j :: rest => do
    let p ← decodeProp j
    let ps ← decodePropList rest
    .ok (p :: ps)
termination_by sizeOf l
decreasing_by
all_goals simp_wf
all_goals omega

/-- `json.Unmarshal` into a `model.Property`: a `null` element leaves the
zero property; otherwise an object whose name/type/optional/proposed
fields decode (the remaining string fields decode identically to `name`
and are omitted, see the `Ty` docstring). -/
def decodeProp (j : Json) :
    Except String (String × Option Ty × Bool × Bool) :=
  match j with
  | .null => .ok ("", none, false, false)
  | .obj pf => do
    let nm ← decodeStringField pf "name"
    let ty ← decodeTypeOpt (pf.lookup "type")
    let opt ← decodeBoolField pf "optional"
    let prop ← decodeBoolField pf "proposed"
    .ok (nm, ty, opt, prop)
  | _ => .error "cannot unmarshal into Property"
termination_by sizeOf j
decreasing_by
all_goals simp_wf
have := sizeOf_lookup_le pf "type"
omega

end

/-- Shape test for a Go `string` field: absent, `null`, or a JSON
string. -/
def isStringField (fields : List (String × Json)) (k : String) : Bool :=
  match fields.lookup k with
  | none => true
  | some .null => true
  | some (.str _) => true
  | some _ => false

/-- Shape test for a Go `int` field. -/
def isIntField (fields : List (String × Json)) (k : String) : Bool :=
  match fields.lookup k with
  | none => true
  | some .null => true
  | some (.num _) => true
  | some _ => false

/-- Shape test for a Go `bool` field. -/
def isBoolField (fields : List (String × Json)) (k : String) : Bool :=
  match fields.lookup k with
  | none => true
  | some .null => true
  | some (.bool _) => true
  | some _ => false

/-- The decoded value of a Go `string` field with a well-shaped payload
(absent and `null` leave the zero value). -/
def strFieldOf (fields : List (String × Json)) (k : String) : String :=
  match fields.lookup k with
  | some (.str s) => s
  | _ => ""

mutual

/-- Well-formedness of a type-node document, written from the spec's
description of when parsing succeeds: the value is an object, every
kind-independent field of the raw struct has the shape its Go type
expects, the kind tag is one of the nine recognised kinds, and the
kind-specific second-pass payload is decodable (`map`: a type-node
`value`; `literal`: a literal property list). -/
def wellFormedType (j : Json) : Bool :=
  match j with
  | .obj fields =>
    isStringField fields "kind" && wfItemsOpt (fields.lookup "items") &&
    wfTypeOpt (fields.lookup "element") && isStringField fields "name" &&
    wfTypeOpt (fields.lookup "key") && isIntField fields "line" &&
    (let kind := strFieldOf fields "kind"
     if kind == "map" then wfTypeOpt (fields.lookup "value")
     else if kind == "literal" then wfLiteralOpt (fields.lookup "value")
     else kind == "base" || kind == "reference" || kind == "array" ||
       kind == "and" || kind == "or" || kind == "tuple" ||
       kind == "stringLiteral")
  | _ => false
termination_by sizeOf j
decreasing_by
all_goals simp_wf
all_goals
  (first
   | omega
   | (have hsz := sizeOf_lookup_le fields "items"; omega)
   | (have hsz := sizeOf_lookup_le fields "element"; omega)
   | (have hsz := sizeOf_lookup_le fields "key"; omega)
   | (have hsz := sizeOf_lookup_le fields "value"; omega))

/-- Well-formedness of an optional type-node field value. -/
def wfTypeOpt (o : Option Json) : Bool :=
  match o with
  | none => true
  | some .null => true
  | some j => wellFormedType j
termination_by sizeOf o
decreasing_by
all_goals simp_wf
all_goals omega

/-- Well-formedness of an optional type-node-list field value. -/
def wfItemsOpt (o : Option Json) : Bool :=
  match o with
  | none => true
  | some .null => true
  | some (.arr elems) => wfTypeListB elems
  | some _ => false
termination_by sizeOf o
decreasing_by
all_goals simp_wf
all_goals omega

/-- Well-formedness of every element of a type-node list. -/
def wfTypeListB (l : List Json) : Bool :=
  match l with
  | [] => true
  | j :: rest => wellFormedType j && wfTypeListB rest
termination_by sizeOf l
decreasing_by
all_goals simp_wf
all_goals omega

/-- Well-formedness of the `literal` second-pass payload value. -/
def wfLiteralOpt (o : Option Json) : Bool :=
  match o with
  | none => true
  | some .null => true
  | some (.obj lfields) => wfPropsOpt (lfields.lookup "properties")
  | some _ => false
termination_by sizeOf o
decreasing_by
all_goals simp_wf
have := sizeOf_lookup_le lfields "properties"
omega

/-- Well-formedness of a literal's `properties` field value. -/
def wfPropsOpt (o : Option Json) : Bool :=
  match o with
  | none => true
  | some .null => true
  | some (.arr elems) => wfPropListB elems
  | some _ => false
termination_by sizeOf o
decreasing_by
all_goals simp_wf
all_goals omega

/-- Well-formedness of every element of a literal property list. -/
def wfPropListB (l : List Json) : Bool :=
  match l with
  | [] => true
  | j :: rest => wfProp j && wfPropListB rest
termination_by sizeOf l
decreasing_by
all_goals simp_wf
all_goals omega

/-- Well-formedness of one literal property document. -/
def wfProp (j : Json) : Bool :=
  match j with
  | .null => true
  | .obj pf =>
    isStringField pf "name" && wfTypeOpt (pf.lookup "type") &&
    isBoolField pf "optional" && isBoolField pf "proposed"
  | _ => false
termination_by sizeOf j
decreasing_by
all_goals simp_wf
have := sizeOf_lookup_le pf "type"
omega

end

/-- `okB` is preserved by `Except.map`. -/
theorem okB_map (f : α → β) (e : Except ε α) : okB (e.map f) = okB e := by
  cases e <;> rfl

/-- `decodeStringField` succeeds exactly on a well-shaped string field. -/
theorem okB_decodeStringField (f : List (String × Json)) (k : String) :
    okB (decodeStringField f k) = isStringField f k := by
  unfold decodeStringField isStringField
  cases h : f.lookup k with
  | none => rfl
  | some j => cases j <;> rfl

/-- `decodeStringField` never fails silently: on success it returns the
field's decoded value. -/
theorem decodeStringField_ok_val {f : List (String × Json)} {k s : String}
    (h : decodeStringField f k = .ok s) : s = strFieldOf f k := by
  unfold decodeStringField at h
  unfold strFieldOf
  cases hl : f.lookup k with
  | none => rw [hl] at h; cases h; rfl
  | some j => rw [hl] at h; cases j <;> (try cases h) <;> rfl

/-- `decodeIntField` succeeds exactly on a well-shaped int field. -/
theorem okB_decodeIntField (f : List (String × Json)) (k : String) :
    okB (decodeIntField f k) = isIntField f k := by
  unfold decodeIntField isIntField
  cases h : f.lookup k with
  | none => rfl
  | some j => cases j <;> rfl

/-- `decodeBoolField` succeeds exactly on a well-shaped bool field. -/
theorem okB_decodeBoolField (f : List (String × Json)) (k : String) :
    okB (decodeBoolField f k) = isBoolField f k := by
  unfold decodeBoolField isBoolField
  cases h : f.lookup k with
  | none => rfl
  | some j => cases j <;> rfl

/-- Binding a success continues with the value. -/
theorem ok_bind (x : α) (f : α → Except ε β) : (Except.ok x >>= f) = f x := rfl

/-- Binding a failure short-circuits. -/
theorem error_bind (e : ε) (f : α → Except ε β) :
    ((Except.error e : Except ε α) >>= f) = .error e := rfl

/-- `decodeTypeOpt` succeeds exactly on a well-formed type-field value
(given the induction hypothesis for strictly smaller documents). -/
theorem okB_decodeTypeOpt_of (o : Option Json)
    (IH : ∀ j, sizeOf j < sizeOf o → okB (unmarshalType j) = wellFormedType j) :
    okB (decodeTypeOpt o) = wfTypeOpt o := by
  cases o with
  | none => simp [decodeTypeOpt, wfTypeOpt, okB]
  | some j =>
    cases j
    case null => simp [decodeTypeOpt, wfTypeOpt, okB]
    all_goals
      (simp only [decodeTypeOpt, wfTypeOpt]
       rw [okB_map]
       exact IH _ (by simp; try omega))

/-- `decodeTypeList` succeeds exactly when every element is well-formed. -/
theorem okB_decodeTypeList_of (l : List Json)
    (IH : ∀ j, sizeOf j < sizeOf l → okB (unmarshalType j) = wellFormedType j) :
    okB (decodeTypeList l) = wfTypeListB l := by
  induction l with
  | nil =>
    rw [decodeTypeList, wfTypeListB]
    rfl
  | cons j rest ih =>
    rw [decodeTypeList, wfTypeListB]
    have hj : okB (unmarshalType j) = wellFormedType j := by
      apply IH
      simp
      omega
    have hr : okB (decodeTypeList rest) = wfTypeListB rest := by
      apply ih
      intro j' h'
      apply IH
      simp at h' ⊢
      omega
    cases hu : unmarshalType j with
    | error e =>
      rw [hu] at hj
      rw [error_bind, ← hj]
      simp [okB]
    | ok t =>
      rw [hu] at hj
      rw [ok_bind, ← hj]
      cases hd : decodeTypeList rest with
      | error e =>
        rw [hd] at hr
        rw [error_bind, ← hr]
        simp [okB]
      | ok ts =>
        rw [hd] at hr
        rw [ok_bind, ← hr]
        simp [okB]

/-- `decodeItemsOpt` succeeds exactly on a well-formed items value. -/
theorem okB_decodeItemsOpt_of (o : Option Json)
    (IH : ∀ j, sizeOf j < sizeOf o → okB (unmarshalType j) = wellFormedType j) :
    okB (decodeItemsOpt o) = wfItemsOpt o := by
  cases o with
  | none => simp [decodeItemsOpt, wfItemsOpt, okB]
  | some j =>
    cases j
    case null => simp [decodeItemsOpt, wfItemsOpt, okB]
    case arr elems =>
      simp only [decodeItemsOpt, wfItemsOpt]
      apply okB_decodeTypeList_of
      intro j' h'
      apply IH
      simp at h' ⊢
      omega
    all_goals simp [decodeItemsOpt, wfItemsOpt, okB]

/-- `decodeProp` succeeds exactly on a well-formed property document. -/
theorem okB_decodeProp_of (j : Json)
    (IH : ∀ j', sizeOf j' < sizeOf j → okB (unmarshalType j') = wellFormedType j') :
    okB (decodeProp j) = wfProp j := by
  cases j
  case null => simp [decodeProp, wfProp, okB]
  case obj pf =>
    simp only [decodeProp, wfProp]
    have hty : okB (decodeTypeOpt (pf.lookup "type")) = wfTypeOpt (pf.lookup "type") := by
      apply okB_decodeTypeOpt_of
      intro j' h'
      apply IH
      have := sizeOf_lookup_le pf "type"
      simp
      omega
    cases hn : decodeStringField pf "name" with
    | error e =>
      have hns := okB_decodeStringField pf "name"
      rw [hn] at hns
      rw [error_bind, ← hns]
      simp [okB]
    | ok nm =>
      have hns := okB_decodeStringField pf "name"
      rw [hn] at hns
      rw [ok_bind, ← hns]
      cases ht : decodeTypeOpt (pf.lookup "type") with
      | error e =>
        rw [ht] at hty
        rw [error_bind, ← hty]
        simp [okB]
      | ok ty =>
        rw [ht] at hty
        rw [ok_bind, ← hty]
        cases ho : decodeBoolField pf "optional" with
        | error e =>
          have hos := okB_decodeBoolField pf "optional"
          rw [ho] at hos
          rw [error_bind, ← hos]
          simp [okB]
        | ok opt =>
          have hos := okB_decodeBoolField pf "optional"
          rw [ho] at hos
          rw [ok_bind, ← hos]
          cases hp : decodeBoolField pf "proposed" with
          | error e =>
            have hps := okB_decodeBoolField pf "proposed"
            rw [hp] at hps
            rw [error_bind, ← hps]
            simp [okB]
          | ok prop =>
            have hps := okB_decodeBoolField pf "proposed"
            rw [hp] at hps
            rw [ok_bind, ← hps]
            simp [okB]
  all_goals simp [decodeProp, wfProp, okB]

/-- `decodePropList` succeeds exactly when every property is
well-formed. -/
theorem okB_decodePropList_of (l : List Json)
    (IH : ∀ j, sizeOf j < sizeOf l → okB (unmarshalType j) = wellFormedType j) :
    okB (decodePropList l) = wfPropListB l := by
  induction l with
  | nil =>
    rw [decodePropList, wfPropListB]
    rfl
  | cons j rest ih =>
    rw [decodePropList, wfPropListB]
    have hj : okB (decodeProp j) = wfProp j := by
      apply okB_decodeProp_of
      intro j' h'
      apply IH
      simp
      omega
    have hr : okB (decodePropList rest) = wfPropListB rest := by
      apply ih
      intro j' h'
      apply IH
      simp at h' ⊢
      omega
    cases hu : decodeProp j with
    | error e =>
      rw [hu] at hj
      rw [error_bind, ← hj]
      simp [okB]
    | ok t =>
      rw [hu] at hj
      rw [ok_bind, ← hj]
      cases hd : decodePropList rest with
      | error e =>
        rw [hd] at hr
        rw [error_bind, ← hr]
        simp [okB]
      | ok ts =>
        rw [hd] at hr
        rw [ok_bind, ← hr]
        simp [okB]

/-- `decodePropsOpt` succeeds exactly on a well-formed properties
value. -/
theorem okB_decodePropsOpt_of (o : Option Json)
    (IH : ∀ j, sizeOf j < sizeOf o → okB (unmarshalType j) = wellFormedType j) :
    okB (decodePropsOpt o) = wfPropsOpt o := by
  cases o with
  | none => simp [decodePropsOpt, wfPropsOpt, okB]
  | some j =>
    cases j
    case null => simp [decodePropsOpt, wfPropsOpt, okB]
    case arr elems =>
      simp only [decodePropsOpt, wfPropsOpt]
      apply okB_decodePropList_of
      intro j' h'
      apply IH
      simp at h' ⊢
      omega
    all_goals simp [decodePropsOpt, wfPropsOpt, okB]

/-- `decodeLiteralOpt` succeeds exactly on a well-formed literal
payload. -/
theorem okB_decodeLiteralOpt_of (o : Option Json)
    (IH : ∀ j, sizeOf j < sizeOf o → okB (unmarshalType j) = wellFormedType j) :
    okB (decodeLiteralOpt o) = wfLiteralOpt o := by
  cases o with
  | none => simp [decodeLiteralOpt, wfLiteralOpt, okB]
  | some j =>
    cases j
    case null => simp [decodeLiteralOpt, wfLiteralOpt, okB]
    case obj lfields =>
      simp only [decodeLiteralOpt, wfLiteralOpt]
      apply okB_decodePropsOpt_of
      intro j' h'
      apply IH
      have := sizeOf_lookup_le lfields "properties"
      simp
      omega
    all_goals simp [decodeLiteralOpt, wfLiteralOpt, okB]

/-- `unmarshalType` succeeds exactly on well-formed type-node
documents. -/
theorem okB_unmarshalType (j : Json) :
    okB (unmarshalType j) = wellFormedType j := by
  have main : ∀ (n : Nat) (j : Json), sizeOf j < n →
      okB (unmarshalType j) = wellFormedType j := by
    intro n
    induction n with
    | zero => intro j h; exact absurd h (Nat.not_lt_zero _)
    | succ n ihn =>
      intro j hj
      cases j
      case obj fields =>
        have hjs : sizeOf (Json.obj fields) = 1 + sizeOf fields := by simp
        have IHf : ∀ j', sizeOf j' < sizeOf fields →
            okB (unmarshalType j') = wellFormedType j' := by
          intro j' h'
          apply ihn
          omega
        simp only [unmarshalType, wellFormedType]
        cases hk : decodeStringField fields "kind" with
        | error e =>
          have hs := okB_decodeStringField fields "kind"
          rw [hk] at hs
          simp only [error_bind, ← hs]
          simp [okB]
        | ok kind =>
          have hs := okB_decodeStringField fields "kind"
          rw [hk] at hs
          have hs' : isStringField fields "kind" = true := by rw [← hs]; rfl
          simp only [ok_bind]
          have hItems := okB_decodeItemsOpt_of (fields.lookup "items")
            (fun j' h' => IHf j'
              (by have := sizeOf_lookup_le fields "items"; omega))
          cases hi : decodeItemsOpt (fields.lookup "items") with
          | error e =>
            rw [hi] at hItems
            simp only [error_bind, ← hItems]
            simp [okB]
          | ok itemsL =>
            rw [hi] at hItems
            have hi' : wfItemsOpt (fields.lookup "items") = true := by
              rw [← hItems]; rfl
            simp only [ok_bind]
            have hElem := okB_decodeTypeOpt_of (fields.lookup "element")
              (fun j' h' => IHf j'
                (by have := sizeOf_lookup_le fields "element"; omega))
            cases he : decodeTypeOpt (fields.lookup "element") with
            | error e =>
              rw [he] at hElem
              simp only [error_bind, ← hElem]
              simp [okB]
            | ok element =>
              rw [he] at hElem
              have he' : wfTypeOpt (fields.lookup "element") = true := by
                rw [← hElem]; rfl
              simp only [ok_bind]
              cases hn : decodeStringField fields "name" with
              | error e =>
                have hns := okB_decodeStringField fields "name"
                rw [hn] at hns
                simp only [error_bind, ← hns]
                simp [okB]
              | ok nameF =>
                have hns := okB_decodeStringField fields "name"
                rw [hn] at hns
                have hn' : isStringField fields "name" = true := by
                  rw [← hns]; rfl
                simp only [ok_bind]
                have hKey := okB_decodeTypeOpt_of (fields.lookup "key")
                  (fun j' h' => IHf j'
                    (by have := sizeOf_lookup_le fields "key"; omega))
                cases hq : decodeTypeOpt (fields.lookup "key") with
                | error e =>
                  rw [hq] at hKey
                  simp only [error_bind, ← hKey]
                  simp [okB]
                | ok keyT =>
                  rw [hq] at hKey
                  have hq' : wfTypeOpt (fields.lookup "key") = true := by
                    rw [← hKey]; rfl
                  simp only [ok_bind]
                  cases hl : decodeIntField fields "line" with
                  | error e =>
                    have hls := okB_decodeIntField fields "line"
                    rw [hl] at hls
                    simp only [error_bind, ← hls]
                    simp [okB]
                  | ok line =>
                    have hls := okB_decodeIntField fields "line"
                    rw [hl] at hls
                    have hl' : isIntField fields "line" = true := by
                      rw [← hls]; rfl
                    simp only [ok_bind]
                    have hkv : kind = strFieldOf fields "kind" :=
                      decodeStringField_ok_val hk
                    simp only [hs', hi', he', hn', hq', hl', Bool.true_and,
                      ← hkv]
                    by_cases hmap : kind = "map"
                    · simp only [hmap, beq_self_eq_true, if_true]
                      try simp only [hq, ok_bind]
                      have hVal := okB_decodeTypeOpt_of (fields.lookup "value")
                        (fun j' h' => IHf j'
                          (by have := sizeOf_lookup_le fields "value"; omega))
                      cases hv : decodeTypeOpt (fields.lookup "value") with
                      | error e =>
                        rw [hv] at hVal
                        simp only [error_bind, ← hVal]
                        simp [okB]
                      | ok valT =>
                        rw [hv] at hVal
                        simp only [ok_bind, ← hVal]
                        simp [okB]
                    · simp only [beq_eq_false_iff_ne.mpr hmap, if_false]
                      by_cases hlit : kind = "literal"
                      · simp only [hlit, beq_self_eq_true, if_true]
                        have hLit := okB_decodeLiteralOpt_of
                          (fields.lookup "value")
                          (fun j' h' => IHf j'
                            (by have := sizeOf_lookup_le fields "value"; omega))
                        cases hv : decodeLiteralOpt (fields.lookup "value") with
                        | error e =>
                          rw [hv] at hLit
                          simp only [error_bind, ← hLit]
                          simp [okB]
                        | ok props =>
                          rw [hv] at hLit
                          simp only [ok_bind, ← hLit]
                          simp [okB]
                      · simp only [beq_eq_false_iff_ne.mpr hlit, if_false]
                        by_cases h1 : kind = "base"
                        · simp [h1, okB]
                        · simp only [beq_eq_false_iff_ne.mpr h1, if_false,
                            Bool.false_or]
                          by_cases h2 : kind = "reference"
                          · simp [h2, okB]
                          · simp only [beq_eq_false_iff_ne.mpr h2, if_false,
                              Bool.false_or]
                            by_cases h3 : kind = "array"
                            · simp [h3, okB]
                            · simp only [beq_eq_false_iff_ne.mpr h3, if_false,
                                Bool.false_or]
                              by_cases h4 : kind = "and"
                              · simp [h4, okB]
                              · simp only [beq_eq_false_iff_ne.mpr h4,
                                  if_false, Bool.false_or]
                                by_cases h5 : kind = "or"
                                · simp [h5, okB]
                                · simp only [beq_eq_false_iff_ne.mpr h5,
                                    if_false, Bool.false_or]
                                  by_cases h6 : kind = "tuple"
                                  · simp [h6, okB]
                                  · simp only [beq_eq_false_iff_ne.mpr h6,
                                      if_false, Bool.false_or]
                                    by_cases h7 : kind = "stringLiteral"
                                    · simp [h7, okB]
                                    · simp only [beq_eq_false_iff_ne.mpr h7,
                                        if_false]
                                      simp [okB]
      all_goals simp [unmarshalType, wellFormedType, okB]
  exact main (sizeOf j + 1) j (by omega)

end parse

namespace proto

/-- The proto generator context: the type resolver built from the model
(`Codegen.resolver`), abstracted as its two queries `Resolve` and
`IsKnown`. -/
structure Ctx where
  resolve : String → String
  isKnown : String → Bool

/-- Run-scoped `pendingWrappers` table: wrapper message name to message
body. -/
abbrev Wrappers := List (String × String)

/-- Embedding of `convertBaseType` (generators/proto/codegen.go lines
529-547). -/
def convertBaseType (name : String) : Except String String :=
  if name == "string" || name == "DocumentUri" || name == "URI" then .ok "string"
  else if name == "integer" then .ok "int32"
  else if name == "uinteger" then .ok "uint32"
  else if name == "decimal" then .ok "double"
  else if name == "boolean" then .ok "bool"
  else if name == "null" then .error "null type cannot be represented in proto3"
  else .error ("unknown base type: " ++ name)

/-- Go `strings.TrimPrefix(name, "$")`. -/
def trimDollar (s : String) : String :=
  match s.data with
  | '$' :: rest => ⟨rest⟩
  | _ => s

/-- The character constants of the `strings.ReplaceAll` call below. -/
def chDot : Char := Char.ofNat 46

/-- The underscore character. -/
def chUnder : Char := Char.ofNat 95

/-- Go `strings.ReplaceAll(s, ".", "_")` as called by `convertType`
(codegen.go line 465): with the single-character pattern `.` this
replaces each `.` character by `_`. -/
def dotsToUnderscores (s : String) : String :=
  ⟨s.data.map (fun c => if c == chDot then chUnder else c)⟩

/-- Embedding of `toProtoMessageName` (codegen.go lines 549-553). -/
def toProtoMessageName (name : String) : String :=
  lspbase.Capitalize (trimDollar name)

mutual

/-- Embedding of `Codegen.convertType` (codegen.go lines 404-526),
threading the `pendingWrappers` table the Go method mutates on its
receiver.  A nil map key makes the Go code dereference a nil pointer; the
embedding returns an error there (outside the modelled domain). -/
def convertType (ctx : Ctx) (t : Option Ty) (w : Wrappers) :
    Except String String × Wrappers :=
  match t with
  | none => (.error "nil type", w)
  | some t =>
    match t with
    | .base name => (convertBaseType name, w)
    | .reference name =>
      let protoType := ctx.resolve name
      if !ctx.isKnown protoType && !ctx.isKnown name then
        (.error ("references proposed type " ++ name), w)
      else (.ok protoType, w)
    | .array e =>
      match convertType ctx e w with
      | (.error err, w1) => (.error err, w1)
      | (.ok elemType, w1) => (.ok ("repeated " ++ elemType), w1)
    | .mapT k val =>
      let keyRes : Except String String :=
        match k with
        | some (.base kn) => convertBaseType kn
        | some (.reference _) => .ok "string"
        | some kt => .error ("unsupported map key type: " ++ kt.kind)
        | none => .error "unsupported map key type"
      match keyRes with
      | .error e => (.error e, w)
      | .ok keyTypeStr =>
        match val with
        | none => (.error "map value is not a type", w)
        | some (Ty.array elem) =>
          match convertType ctx elem w with
          | (.error err, w1) => (.error err, w1)
          | (.ok elemType, w1) =>
            let cleanType := dotsToUnderscores elemType
            let wrapperName := "MapArray_" ++ toProtoMessageName cleanType
            let body := "message " ++ wrapperName ++ " \x7b\n  repeated " ++
              elemType ++ " items = 1;\n\x7d\n"
            (.ok ("map<" ++ keyTypeStr ++ ", " ++ wrapperName ++ ">"),
              registerOnce w1 wrapperName body)
        | some vt =>
          match convertType ctx (some vt) w with
          | (.error err, w1) => (.error err, w1)
          | (.ok valTypeStr, w1) =>
            (.ok ("map<" ++ keyTypeStr ++ ", " ++ valTypeStr ++ ">"), w1)
    | .or itemsL => convertOrItems ctx itemsL w
    | .andT itemsL =>
      match itemsL with
      | [] => (.error "empty intersection type", w)
      | first :: _ => convertType ctx (some first) w
    | .stringLiteral => (.ok "string", w)
    | .tuple _ => (.ok "google.protobuf.ListValue", w)
    | .literal _ => (.error "unsupported type kind: literal", w)
    | .other k =>
      if k == "integerLiteral" then (.ok "int32", w)
      else if k == "booleanLiteral" then (.ok "bool", w)
      else (.error ("unsupported type kind: " ++ k), w)
termination_by (sizeOf t, 0)
decreasing_by
all_goals simp_wf
all_goals try exact Prod.Lex.left _ _ (by omega)
all_goals exact Prod.Lex.right _ (by omega)

/-- The union loop of `convertType` (codegen.go lines 483-502): skip null
items, return the first item that converts, keeping wrapper registrations
made by failed attempts (the Go receiver retains them). -/
def convertOrItems (ctx : Ctx) (l : List Ty) (w : Wrappers) :
    Except String String × Wrappers :=
  match l with
  | [] => (.error "could not resolve union type to a single proto type", w)
  | item :: rest =>
    if item.isNullBase then convertOrItems ctx rest w
    else
      match convertType ctx (some item) w with
      | (.ok res, w1) => (.ok res, w1)
      | (.error _, w1) => convertOrItems ctx rest w1
termination_by (sizeOf l, 1)
decreasing_by
all_goals simp_wf
all_goals
  try exact Prod.Lex.left _ _ (by have := Ty.one_le_sizeOf item; omega)
all_goals
  exact Prod.Lex.left _ _ (by have := one_le_sizeOf_list rest; omega)

end

end proto

/-- Embedding of `model.Property` (structure fields only as far as any
embedded consumer reads them): name, type, `Optional`, `Proposed`. -/
structure Property where
  name : String
  type : Option Ty
  optional : Bool
  proposed : Bool

/-- Embedding of `model.Structure` (name, properties, extends, mixins,
`Proposed`).  `extendsList`/`mixins` keep the Go slices of pointers as
lists of optional nodes. -/
structure Structure where
  name : String
  properties : List Property
  extendsList : List (Option Ty)
  mixins : List (Option Ty)
  proposed : Bool

/-- Embedding of `model.TypeAlias`. -/
structure TypeAlias where
  name : String
  type : Option Ty
  proposed : Bool

/-- Embedding of `model.Enumeration` (only the fields the resolver and
the proposed-cache read). -/
structure Enumeration where
  name : String
  proposed : Bool

/-- Embedding of `model.Model` (the collections the resolver walks;
requests and notifications are never touched by it). -/
structure Model where
  structures : List Structure
  enumerations : List Enumeration
  typeAliases : List TypeAlias

namespace generator

/-- The names `collectDeps` can match (structure and type-alias names);
used only for the termination measure. -/
def modelNames (m : Model) : List String :=
  m.structures.map (fun s => s.name) ++ m.typeAliases.map (fun a => a.name)

/-- Number of model names not yet in the visited set: the primary
termination measure of the dependency walk. -/
def unvis (m : Model) (v : List String) : Nat :=
  ((modelNames m).filter (fun n => !v.contains n)).length

/-- Filtering with a pointwise-stronger predicate yields at most as many
elements. -/
theorem length_filter_le_of_imp (l : List α) (p q : α → Bool)
    (h : ∀ x, p x = true → q x = true) :
    (l.filter p).length ≤ (l.filter q).length := by
  induction l with
  | nil => simp
  | cons a l ih =>
    by_cases hp : p a = true
    · simp [List.filter, hp, h a hp]
      omega
    · simp at hp
      simp [List.filter, hp]
      cases hq : q a <;> simp <;> omega

/-- Filtering with a pointwise-stronger predicate that moreover rejects
some member the weaker one accepts yields strictly fewer elements. -/
theorem length_filter_lt_of_imp (l : List α) (p q : α → Bool)
    (h : ∀ x, p x = true → q x = true) (a : α) (ha : a ∈ l)
    (hpa : p a = false) (hqa : q a = true) :
    (l.filter p).length < (l.filter q).length := by
  induction l with
  | nil => cases ha
  | cons b l ih =>
    rcases List.mem_cons.mp ha with hb | hb
    · subst hb
      simp [List.filter, hpa, hqa]
      have := length_filter_le_of_imp l p q h
      omega
    · by_cases hp : p b = true
      · simp [List.filter, hp, h b hp]
        exact ih hb
      · simp at hp
        simp [List.filter, hp]
        cases hq : q b
        · simp
          exact ih hb
        · simp
          have := ih hb
          omega

/-- Membership of the visited list is preserved under pushing a name. -/
theorem contains_cons_of {v : List String} {x n : String}
    (hx : v.contains x = true) : (n :: v).contains x = true := by
  simp [List.contains_cons]
  simp at hx
  exact Or.inr hx

/-- Growing the visited set cannot increase the number of unvisited model
names. -/
theorem unvis_mono (m : Model) {v w : List String}
    (h : ∀ x, v.contains x = true → w.contains x = true) :
    unvis m w ≤ unvis m v := by
  apply length_filter_le_of_imp
  intro x hx
  simp at hx ⊢
  intro hw
  exact hx (by simpa using h x (by simpa using hw))

/-- Pushing an unvisited model name strictly decreases the number of
unvisited model names. -/
theorem unvis_insert_lt (m : Model) {name : String} {v : List String}
    (hmem : name ∈ modelNames m) (hv : v.contains name = false) :
    unvis m (name :: v) < unvis m v := by
  refine length_filter_lt_of_imp _ _ _ ?_ name hmem ?_ ?_
  · intro x hx
    simp at hx ⊢
    exact hx.2
  · simp
  · simpa using hv

/-- A name matched in the structure list is a model name. -/
theorem mem_modelNames_of_structure (m : Model) {s : Structure} {name : String}
    (h : m.structures.find? (fun s => s.name == name) = some s) :
    name ∈ modelNames m := by
  have hmem := List.mem_of_find?_eq_some h
  have hpred := List.find?_some h
  have hname : s.name = name := by simpa using hpred
  unfold modelNames
  apply List.mem_append_left
  exact hname ▸ List.mem_map_of_mem (fun s => s.name) hmem

/-- A name matched in the type-alias list is a model name. -/
theorem mem_modelNames_of_alias (m : Model) {a : TypeAlias} {name : String}
    (h : m.typeAliases.find? (fun a => a.name == name) = some a) :
    name ∈ modelNames m := by
  have hmem := List.mem_of_find?_eq_some h
  have hpred := List.find?_some h
  have hname : a.name = name := by simpa using hpred
  unfold modelNames
  apply List.mem_append_right
  exact hname ▸ List.mem_map_of_mem (fun a => a.name) hmem

/-- Lexicographic helper: a non-increasing first component together with a
strictly decreasing second component is `Prod.Lex`-smaller. -/
theorem lex_of_le_of_lt {a₁ a₂ b₁ b₂ : Nat} (h1 : a₂ ≤ a₁) (h2 : b₂ < b₁) :
    Prod.Lex (· < ·) (· < ·) (a₂, b₂) (a₁, b₁) := by
  rcases Nat.lt_or_ge a₂ a₁ with h | h
  · exact Prod.Lex.left _ _ h
  · have heq : a₂ = a₁ := Nat.le_antisymm h1 h
    subst heq
    exact Prod.Lex.right _ h2

/-- Every `Option` has positive size. -/
theorem one_le_sizeOf_option [SizeOf α] (o : Option α) : 1 ≤ sizeOf o := by
  cases o <;> (simp; try omega)

/-- The visited set a walk returns, together with the guarantee that the
walk only ever adds names (`visited` grows monotonically). -/
abbrev Visited (v : List String) :=
  {w : List String // ∀ x, v.contains x = true → w.contains x = true}

mutual

/-- Embedding of `collectDeps` (generator/resolve.go lines 30-66):
mark `name` visited first, then walk the first structure or type alias of
that name (properties — skipping proposed ones unless `ip` —, extends,
mixins, or the alias target).  Names matching neither (unknown names and
enumerations) are added with nothing further explored.  The Go function
mutates the visited map; here the grown set is returned, bundled with the
growth guarantee used by the termination measure. -/
def collectDeps (m : Model) (ip : Bool) (name : String) (v : List String) :
    Visited v :=
  if hv : v.contains name then ⟨v, fun _ hx => hx⟩
  else
    match hs : m.structures.find? (fun s => s.name == name) with
    | some s =>
      let r1 := collectProps m ip s.properties (name :: v)
      let r2 := collectRefsList m ip s.extendsList r1.1
      let r3 := collectRefsList m ip s.mixins r2.1
      ⟨r3.1, fun x hx => r3.2 x (r2.2 x (r1.2 x (contains_cons_of hx)))⟩
    | none =>
      match ha : m.typeAliases.find? (fun a => a.name == name) with
      | some al =>
        let r := collectTypeRefs m ip al.type (name :: v)
        ⟨r.1, fun x hx => r.2 x (contains_cons_of hx)⟩
      | none => ⟨name :: v, fun _ hx => contains_cons_of hx⟩
termination_by (unvis m v, 0)
decreasing_by
all_goals simp_wf
· exact Prod.Lex.left _ _
    (unvis_insert_lt m (mem_modelNames_of_structure m hs) (by simpa using hv))
· exact Prod.Lex.left _ _
    (Nat.lt_of_le_of_lt (unvis_mono m r1.2)
      (unvis_insert_lt m (mem_modelNames_of_structure m hs) (by simpa using hv)))
· exact Prod.Lex.left _ _
    (Nat.lt_of_le_of_lt (unvis_mono m (fun x hx => r2.2 x (r1.2 x hx)))
      (unvis_insert_lt m (mem_modelNames_of_structure m hs) (by simpa using hv)))
· exact Prod.Lex.left _ _
    (unvis_insert_lt m (mem_modelNames_of_alias m ha) (by simpa using hv))

/-- Embedding of `collectTypeRefs` (resolve.go lines 70-104): recurse
into references, array elements, map keys/values, or/and/tuple items and
literal properties. -/
def collectTypeRefs (m : Model) (ip : Bool) (t : Option Ty) (v : List String) :
    Visited v :=
  match t with
  | none => ⟨v, fun _ hx => hx⟩
  | some t =>
    match t with
    | .reference n => collectDeps m ip n v
    | .array e => collectTypeRefs m ip e v
    | .mapT k val =>
      let r1 := collectTypeRefs m ip k v
      let r2 := collectTypeRefs m ip val r1.1
      ⟨r2.1, fun x hx => r2.2 x (r1.2 x hx)⟩
    | .or l => collectItems m ip l v
    | .andT l => collectItems m ip l v
    | .tuple l => collectItems m ip l v
    | .literal props => collectLitProps m ip props v
    | _ => ⟨v, fun _ hx => hx⟩
termination_by (unvis m v, sizeOf t)
decreasing_by
all_goals simp_wf
all_goals try exact Prod.Lex.right _ (by omega)
all_goals exact lex_of_le_of_lt (unvis_mono m r1.2) (by omega)

/-- The loops of `collectTypeRefs` over or/and/tuple item lists. -/
def collectItems (m : Model) (ip : Bool) (l : List Ty) (v : List String) :
    Visited v :=
  match l with
  | [] => ⟨v, fun _ hx => hx⟩
  | t :: ts =>
    let r1 := collectTypeRefs m ip (some t) v
    let r2 := collectItems m ip ts r1.1
    ⟨r2.1, fun x hx => r2.2 x (r1.2 x hx)⟩
termination_by (unvis m v, sizeOf l)
decreasing_by
all_goals simp_wf
· exact Prod.Lex.right _ (by have := one_le_sizeOf_list rest; omega)
· exact lex_of_le_of_lt (unvis_mono m r1.2) (by omega)

/-- The loops of `collectDeps` over extends/mixins slices. -/
def collectRefsList (m : Model) (ip : Bool) (l : List (Option Ty)) (v : List String) :
    Visited v :=
  match l with
  | [] => ⟨v, fun _ hx => hx⟩
  | t :: ts =>
    let r1 := collectTypeRefs m ip t v
    let r2 := collectRefsList m ip ts r1.1
    ⟨r2.1, fun x hx => r2.2 x (r1.2 x hx)⟩
termination_by (unvis m v, sizeOf l)
decreasing_by
all_goals simp_wf
· exact Prod.Lex.right _ (by omega)
· exact lex_of_le_of_lt (unvis_mono m r1.2) (by omega)

/-- The property loop of `collectDeps` (resolve.go lines 39-45): proposed
properties are skipped unless `ip` (includeProposed) is set. -/
def collectProps (m : Model) (ip : Bool) (l : List Property) (v : List String) :
    Visited v :=
  match l with
  | [] => ⟨v, fun _ hx => hx⟩
  | p :: ps =>
    if p.proposed && !ip then collectProps m ip ps v
    else
      let r1 := collectTypeRefs m ip p.type v
      let r2 := collectProps m ip ps r1.1
      ⟨r2.1, fun x hx => r2.2 x (r1.2 x hx)⟩
termination_by (unvis m v, sizeOf l)
decreasing_by
all_goals simp_wf
· exact Prod.Lex.right _ (by omega)
· exact Prod.Lex.right _
    (by obtain ⟨pn, pt, po, pp⟩ := p; simp; omega)
· exact lex_of_le_of_lt (unvis_mono m r1.2) (by omega)

/-- The literal-property loop of `collectTypeRefs` (resolve.go lines
96-102; note: no proposed-skip here, matching the source). -/
def collectLitProps (m : Model) (ip : Bool)
    (l : List (String × Option Ty × Bool × Bool)) (v : List String) :
    Visited v :=
  match l with
  | [] => ⟨v, fun _ hx => hx⟩
  | p :: ps =>
    let r1 := collectTypeRefs m ip p.2.1 v
    let r2 := collectLitProps m ip ps r1.1
    ⟨r2.1, fun x hx => r2.2 x (r1.2 x hx)⟩
termination_by (unvis m v, sizeOf l)
decreasing_by
all_goals simp_wf
· exact Prod.Lex.right _
    (by obtain ⟨pn, pt, po, pp⟩ := p; simp; omega)
· exact lex_of_le_of_lt (unvis_mono m r1.2) (by omega)

end

/-- The loop of `ResolveDeps` over the requested names (resolve.go lines
23-25), threading the shared visited set.  Go iterates the `filter` map in
unspecified order; the embedding takes the names as a list (the theorems
below are order-independent). -/
def resolveLoop (m : Model) (ip : Bool) : List String → List String → List String
  | [], acc => acc
  | n :: rest, acc => resolveLoop m ip rest (collectDeps m ip n acc).1

/-- Embedding of `generator.ResolveDeps` (resolve.go lines 17-27): a nil
filter is returned as nil ("generate everything"); otherwise the
transitive closure of the requested names. -/
def ResolveDeps (m : Model) (filter : Option (List String)) (ip : Bool) :
    Option (List String) :=
  match filter with
  | none => none
  | some names => some (resolveLoop m ip names [])

/-- `collectDeps` always records the requested name itself, before and
independently of whether it matches anything in the model. -/
theorem collectDeps_self_mem (m : Model) (ip : Bool) (name : String)
    (v : List String) : ((collectDeps m ip name v).1.contains name) = true := by
  rw [collectDeps]
  split
  · simpa using (by assumption : v.contains name = true)
  · split
    · exact (collectRefsList m ip _ _).2 name
        ((collectRefsList m ip _ _).2 name
          ((collectProps m ip _ _).2 name (by simp)))
    · split
      · exact (collectTypeRefs m ip _ _).2 name (by simp)
      · simp

/-- `resolveLoop` never removes a name from the accumulated set. -/
theorem resolveLoop_mono (m : Model) (ip : Bool) (names : List String) :
    ∀ (acc : List String) (x : String), acc.contains x = true →
      (resolveLoop m ip names acc).contains x = true := by
  induction names with
  | nil => intro acc x hx; simpa [resolveLoop] using hx
  | cons n rest ih =>
    intro acc x hx
    rw [resolveLoop]
    exact ih _ x ((collectDeps m ip n acc).2 x hx)

/-- Every requested name appears in the expanded set. -/
theorem resolveLoop_mem (m : Model) (ip : Bool) (names : List String) :
    ∀ (acc : List String) (x : String), x ∈ names →
      (resolveLoop m ip names acc).contains x = true := by
  induction names with
  | nil => intro acc x hx; cases hx
  | cons n rest ih =>
    intro acc x hx
    rcases List.mem_cons.mp hx with hx | hx
    · subst hx
      rw [resolveLoop]
      exact resolveLoop_mono m ip rest _ x (collectDeps_self_mem m ip x acc)
    · rw [resolveLoop]
      exact ih _ x hx

end generator

namespace golang

/-- `getOrType` when the item filter leaves nothing. -/
theorem getOrType_filter_nil (cfg : Ctx) (itemList : List Ty)
    (hf : itemList.filter (orItemKeep cfg) = []) :
    getOrType cfg (Ty.or itemList) = "any" := by
  cases itemList with
  | nil => simp [getOrType]
  | cons a rest =>
    simp only [getOrType, List.length_cons]
    rw [if_neg (by simp)]
    rw [hf]

/-- `getOrType` when the item filter leaves exactly one item. -/
theorem getOrType_filter_single (cfg : Ctx) (itemList : List Ty) (single : Ty)
    (hf : itemList.filter (orItemKeep cfg) = [single]) :
    getOrType cfg (Ty.or itemList) = goType cfg (some single) := by
  cases itemList with
  | nil => simp at hf
  | cons a rest =>
    simp only [getOrType, List.length_cons]
    rw [if_neg (by simp)]
    rw [hf]

/-- `getOrType` when the item filter leaves two or more items: the
sorted, joined identifier names of the surviving pairs. -/
theorem getOrType_filter_big (cfg : Ctx) (itemList : List Ty)
    (x y : Ty) (rest : List Ty)
    (hf : itemList.filter (orItemKeep cfg) = x :: y :: rest) :
    getOrType cfg (Ty.or itemList) =
      "Or_" ++ joinSep "_"
        (((goPairs cfg (x :: y :: rest)).mergeSort
          (fun a b => a.1 ≤ b.1)).map (fun p => p.1)) := by
  cases itemList with
  | nil => simp at hf
  | cons a t =>
    simp only [getOrType, List.length_cons]
    rw [if_neg (by simp)]
    rw [hf]

/-- `getOrRegister` in the small cases leaves the table unchanged. -/
theorem getOrRegister_filter_small (cfg : Ctx) (itemList : List Ty)
    (tbl : List (String × OrTypeInfo))
    (hf : itemList.filter (orItemKeep cfg) = [] ∨
      ∃ single, itemList.filter (orItemKeep cfg) = [single]) :
    getOrRegister cfg (Ty.or itemList) tbl = tbl := by
  cases itemList with
  | nil => simp [getOrRegister]
  | cons a rest =>
    simp only [getOrRegister, List.length_cons]
    rw [if_neg (by simp)]
    rcases hf with hf | ⟨single, hf⟩ <;> rw [hf]

/-- `getOrRegister` in the wrapper case registers exactly once under the
computed name. -/
theorem getOrRegister_filter_big (cfg : Ctx) (itemList : List Ty)
    (x y : Ty) (rest : List Ty) (tbl : List (String × OrTypeInfo))
    (hf : itemList.filter (orItemKeep cfg) = x :: y :: rest) :
    getOrRegister cfg (Ty.or itemList) tbl =
      registerOnce tbl
        ("Or_" ++ joinSep "_"
          (((goPairs cfg (x :: y :: rest)).mergeSort
            (fun a b => a.1 ≤ b.1)).map (fun p => p.1)))
        ⟨"Or_" ++ joinSep "_"
          (((goPairs cfg (x :: y :: rest)).mergeSort
            (fun a b => a.1 ≤ b.1)).map (fun p => p.1)),
         ((goPairs cfg (x :: y :: rest)).mergeSort
            (fun a b => a.1 ≤ b.1)).map (fun p => p.2)⟩ := by
  cases itemList with
  | nil => simp at hf
  | cons a t =>
    simp only [getOrRegister, List.length_cons]
    rw [if_neg (by simp)]
    rw [hf]

/-- `goPairs` is the map of the pair constructor over the items. -/
theorem goPairs_eq_map (cfg : Ctx) (l : List Ty) :
    goPairs cfg l =
      l.map (fun item => (typeNameForIdent (some item), goType cfg (some item))) := by
  induction l with
  | nil => rw [goPairs]; rfl
  | cons a rest ih => rw [goPairs, ih]; rfl

end golang

namespace kotlin

/-- Kotlin `getOrType` when the item filter leaves nothing. -/
theorem kotlinOrType_filter_nil (cfg : Ctx) (itemList : List Ty)
    (hf : itemList.filter (orItemKeep cfg) = []) :
    getOrType cfg (Ty.or itemList) = "Any" := by
  cases itemList with
  | nil => simp [getOrType]
  | cons a rest =>
    simp only [getOrType, List.length_cons]
    rw [if_neg (by simp)]
    rw [hf]

/-- Kotlin `getOrType` when the item filter leaves exactly one item. -/
theorem kotlinOrType_filter_single (cfg : Ctx) (itemList : List Ty) (single : Ty)
    (hf : itemList.filter (orItemKeep cfg) = [single]) :
    getOrType cfg (Ty.or itemList) = kotlinType cfg (some single) false := by
  cases itemList with
  | nil => simp at hf
  | cons a rest =>
    simp only [getOrType, List.length_cons]
    rw [if_neg (by simp)]
    rw [hf]

/-- Kotlin `getOrType` in the wrapper case: sorted, joined identifier
names, with no deduplication step. -/
theorem kotlinOrType_filter_big (cfg : Ctx) (itemList : List Ty)
    (x y : Ty) (rest : List Ty)
    (hf : itemList.filter (orItemKeep cfg) = x :: y :: rest) :
    getOrType cfg (Ty.or itemList) =
      "Or_" ++ joinSep "_"
        (((ktPairs cfg (x :: y :: rest)).mergeSort
          (fun a b => a.1 ≤ b.1)).map (fun p => p.1)) := by
  cases itemList with
  | nil => simp at hf
  | cons a t =>
    simp only [getOrType, List.length_cons]
    rw [if_neg (by simp)]
    rw [hf]

end kotlin

namespace groovy

/-- Groovy `getOrType` when the item filter leaves nothing. -/
theorem groovyOrType_filter_nil (cfg : Ctx) (itemList : List Ty)
    (hf : itemList.filter (orItemKeep cfg) = []) :
    getOrType cfg (Ty.or itemList) = "Object" := by
  cases itemList with
  | nil => simp [getOrType]
  | cons a rest =>
    simp only [getOrType, List.length_cons]
    rw [if_neg (by simp)]
    rw [hf]

/-- Groovy `getOrType` when the item filter leaves exactly one item. -/
theorem groovyOrType_filter_single (cfg : Ctx) (itemList : List Ty) (single : Ty)
    (hf : itemList.filter (orItemKeep cfg) = [single]) :
    getOrType cfg (Ty.or itemList) = groovyType cfg (some single) := by
  cases itemList with
  | nil => simp at hf
  | cons a rest =>
    simp only [getOrType, List.length_cons]
    rw [if_neg (by simp)]
    rw [hf]

/-- Groovy `getOrType` in the wrapper case: dedupe the sorted pairs; a
single surviving pair is returned directly, otherwise the joined name of
the deduped pairs. -/
theorem groovyOrType_filter_big (cfg : Ctx) (itemList : List Ty)
    (x y : Ty) (rest : List Ty)
    (hf : itemList.filter (orItemKeep cfg) = x :: y :: rest) :
    getOrType cfg (Ty.or itemList) =
      (match compactBy (fun a b => a.1 == b.1)
          ((grPairs cfg (x :: y :: rest)).mergeSort
            (fun a b => a.1 ≤ b.1)) with
       | [p] => p.2
       | deduped => "Or_" ++ joinSep "_" (deduped.map (fun p => p.1))) := by
  cases itemList with
  | nil => simp at hf
  | cons a t =>
    simp only [getOrType, List.length_cons]
    rw [if_neg (by simp)]
    rw [hf]
    split
    all_goals try rfl
    all_goals try (rename_i h; simp at h)
    all_goals (split <;> rfl)

end groovy

namespace golang

/-- `goType` on a base node is the base-type table entry. -/
theorem goType_base (cfg : Ctx) (n : String) :
    goType cfg (some (Ty.base n)) = goBaseTypeName n := by
  unfold goType
  rw [if_neg (by simp [Ty.IsOptional, Ty.kind])]

/-- `goType` on a reference node is the exported name. -/
theorem goType_reference (cfg : Ctx) (n : String) :
    goType cfg (some (Ty.reference n)) = lspbase.ExportName n := by
  unfold goType
  rw [if_neg (by simp [Ty.IsOptional, Ty.kind])]

/-- `goType` on a non-optional union is `getOrType`. -/
theorem goType_or_not_optional (cfg : Ctx) (l : List Ty)
    (h : Ty.IsOptional (Ty.or l) = false) :
    goType cfg (some (Ty.or l)) = getOrType cfg (Ty.or l) := by
  unfold goType
  rw [if_neg (by simp [h])]

/-- `goType` on an optional node is a pointer to the non-null
component. -/
theorem goType_optional (cfg : Ctx) (t : Ty) (h : t.IsOptional = true) :
    goType cfg (some t) = "*" ++ goType cfg t.NonNullType := by
  conv_lhs => unfold goType
  rw [if_pos h]

/-- `goType` on a nil node pointer. -/
theorem goType_none (cfg : Ctx) : goType cfg none = "any" := by
  unfold goType
  rfl

end golang

/-- String concatenation cancels on the left. -/
theorem string_append_left_cancel {s a b : String} (h : s ++ a = s ++ b) :
    a = b := by
  apply String.ext
  have hd : (s ++ a).data = (s ++ b).data := by rw [h]
  simp [String.data_append] at hd
  exact hd

/-!  Claim theorems.  Each theorem below settles one claim of the
specification against the embedded code. -/

/-- C1.  A two-item union containing the null base type lowers as a
pointer (Go's optional) to the lowering of the other item, whichever
position the null occupies; a three-item union `[T, null, U]` is not
optional and lowers to a two-variant union with the null item
stripped. -/
theorem C1_optional_detection :
    (∀ (cfg : golang.Ctx) (other : Ty),
      golang.goType cfg (some (Ty.or [other, Ty.base "null"])) =
        "*" ++ golang.goType cfg (some other) ∧
      golang.goType cfg (some (Ty.or [Ty.base "null", other])) =
        "*" ++ golang.goType cfg (some other)) ∧
    (∀ (cfg : golang.Ctx) (T U : Ty),
      golang.orItemKeep cfg T = true → golang.orItemKeep cfg U = true →
      Ty.IsOptional (Ty.or [T, Ty.base "null", U]) = false ∧
      golang.goType cfg (some (Ty.or [T, Ty.base "null", U])) =
        "Or_" ++ joinSep "_"
          (((golang.goPairs cfg [T, U]).mergeSort
            (fun a b => a.1 ≤ b.1)).map (fun p => p.1))) := by
  constructor
  · intro cfg other
    have hopt1 : (Ty.or [other, Ty.base "null"]).IsOptional = true := by
      simp [Ty.IsOptional, Ty.kind, Ty.items, Ty.isNullBase]
    have hopt2 : (Ty.or [Ty.base "null", other]).IsOptional = true := by
      simp [Ty.IsOptional, Ty.kind, Ty.items, Ty.isNullBase]
    by_cases ho : other.isNullBase = true
    · cases other with
      | base n =>
        have hn : n = "null" := by simpa [Ty.isNullBase] using ho
        subst hn
        have hn1 : (Ty.or [Ty.base "null", Ty.base "null"]).NonNullType = none := by
          simp [Ty.NonNullType, hopt1, Ty.items, List.find?, Ty.isNullBase]
        constructor <;>
          (rw [golang.goType_optional _ _ (by assumption), hn1,
            golang.goType_none, golang.goType_base]
           rfl)
      | reference n => exact absurd ho (by simp [Ty.isNullBase])
      | array e => exact absurd ho (by simp [Ty.isNullBase])
      | mapT k v => exact absurd ho (by simp [Ty.isNullBase])
      | literal p => exact absurd ho (by simp [Ty.isNullBase])
      | stringLiteral => exact absurd ho (by simp [Ty.isNullBase])
      | or l => exact absurd ho (by simp [Ty.isNullBase])
      | andT l => exact absurd ho (by simp [Ty.isNullBase])
      | tuple l => exact absurd ho (by simp [Ty.isNullBase])
      | other k => exact absurd ho (by simp [Ty.isNullBase])
    · have ho' : other.isNullBase = false := by simpa using ho
      have hn1 : (Ty.or [other, Ty.base "null"]).NonNullType = some other := by
        simp [Ty.NonNullType, hopt1, Ty.items, List.find?, ho']
      have hnb : (Ty.base "null").isNullBase = true := by
        simp [Ty.isNullBase]
      have hn2 : (Ty.or [Ty.base "null", other]).NonNullType = some other := by
        simp [Ty.NonNullType, hopt2, Ty.items, List.find?, ho', hnb]
      exact ⟨by rw [golang.goType_optional _ _ hopt1, hn1],
             by rw [golang.goType_optional _ _ hopt2, hn2]⟩
  · intro cfg T U hT hU
    have hnotopt : (Ty.or [T, Ty.base "null", U]).IsOptional = false := by
      simp [Ty.IsOptional, Ty.kind, Ty.items]
    have hnull : golang.orItemKeep cfg (Ty.base "null") = false := by
      simp [golang.orItemKeep, Ty.isNullBase]
    have hfilter : [T, Ty.base "null", U].filter (golang.orItemKeep cfg) =
        [T, U] := by
      simp [List.filter, hT, hU, hnull]
    exact ⟨hnotopt,
      by rw [golang.goType_or_not_optional _ _ hnotopt,
        golang.getOrType_filter_big _ _ _ _ _ hfilter]⟩

/-- Witness for C1: the three-item union of integer, null and string is
not optional and lowers as a two-variant union. -/
theorem C1_witness :
    (golang.orItemKeep (golang.Ctx.mk false (fun _ => false))
        (Ty.base "integer") = true) ∧
    (golang.orItemKeep (golang.Ctx.mk false (fun _ => false))
        (Ty.base "string") = true) ∧
    (Ty.IsOptional (Ty.or [Ty.base "integer", Ty.base "null",
        Ty.base "string"]) = false ∧
      golang.goType (golang.Ctx.mk false (fun _ => false))
        (some (Ty.or [Ty.base "integer", Ty.base "null", Ty.base "string"])) =
        "Or_" ++ joinSep "_"
          (((golang.goPairs (golang.Ctx.mk false (fun _ => false))
            [Ty.base "integer", Ty.base "string"]).mergeSort
              (fun a b => a.1 ≤ b.1)).map (fun p => p.1))) :=
  ⟨by rfl, by rfl,
    C1_optional_detection.2 (golang.Ctx.mk false (fun _ => false))
      (Ty.base "integer") (Ty.base "string") (by rfl) (by rfl)⟩

/-- C4.  For every `or` node, after dropping null items (and, when
proposed-exclusion is active, reference items pointing at proposed types
— the filter `orItemKeep` embeds both conditions): if zero items remain
the node lowers to the target's dynamic/any type, and if exactly one item
remains it lowers to that item's own lowering directly, with no union
wrapper synthesized; in both the Go and Kotlin backends. -/
theorem C4_union_zero_or_one_survivor :
    (∀ (cfg : golang.Ctx) (itemList : List Ty),
      itemList.filter (golang.orItemKeep cfg) = [] →
        golang.getOrType cfg (Ty.or itemList) = "any") ∧
    (∀ (cfg : golang.Ctx) (itemList : List Ty) (single : Ty),
      itemList.filter (golang.orItemKeep cfg) = [single] →
        golang.getOrType cfg (Ty.or itemList) =
          golang.goType cfg (some single)) ∧
    (∀ (cfg : kotlin.Ctx) (itemList : List Ty),
      itemList.filter (kotlin.orItemKeep cfg) = [] →
        kotlin.getOrType cfg (Ty.or itemList) = "Any") ∧
    (∀ (cfg : kotlin.Ctx) (itemList : List Ty) (single : Ty),
      itemList.filter (kotlin.orItemKeep cfg) = [single] →
        kotlin.getOrType cfg (Ty.or itemList) =
          kotlin.kotlinType cfg (some single) false) :=
  ⟨golang.getOrType_filter_nil, golang.getOrType_filter_single,
   kotlin.kotlinOrType_filter_nil, kotlin.kotlinOrType_filter_single⟩

/-- Witness for C4: a union of only null lowers to any; a union of null
and a reference lowers to the reference's own lowering. -/
theorem C4_witness :
    (([Ty.base "null"].filter
        (golang.orItemKeep (golang.Ctx.mk false (fun _ => false))) = []) ∧
      golang.getOrType (golang.Ctx.mk false (fun _ => false))
        (Ty.or [Ty.base "null"]) = "any") ∧
    (([Ty.base "null", Ty.reference "Foo"].filter
        (golang.orItemKeep (golang.Ctx.mk false (fun _ => false))) =
          [Ty.reference "Foo"]) ∧
      golang.getOrType (golang.Ctx.mk false (fun _ => false))
        (Ty.or [Ty.base "null", Ty.reference "Foo"]) =
        golang.goType (golang.Ctx.mk false (fun _ => false))
          (some (Ty.reference "Foo"))) ∧
    (([Ty.base "null"].filter
        (kotlin.orItemKeep (kotlin.Ctx.mk false (fun _ => false))) = []) ∧
      kotlin.getOrType (kotlin.Ctx.mk false (fun _ => false))
        (Ty.or [Ty.base "null"]) = "Any") ∧
    (([Ty.base "null", Ty.reference "Foo"].filter
        (kotlin.orItemKeep (kotlin.Ctx.mk false (fun _ => false))) =
          [Ty.reference "Foo"]) ∧
      kotlin.getOrType (kotlin.Ctx.mk false (fun _ => false))
        (Ty.or [Ty.base "null", Ty.reference "Foo"]) =
        kotlin.kotlinType (kotlin.Ctx.mk false (fun _ => false))
          (some (Ty.reference "Foo")) false) :=
  ⟨⟨by rfl, C4_union_zero_or_one_survivor.1 _ _ (by rfl)⟩,
   ⟨by rfl, C4_union_zero_or_one_survivor.2.1 _ _ _ (by rfl)⟩,
   ⟨by rfl, C4_union_zero_or_one_survivor.2.2.1 _ _ (by rfl)⟩,
   ⟨by rfl, C4_union_zero_or_one_survivor.2.2.2 _ _ _ (by rfl)⟩⟩

/-- Sorting pairs by their first component and projecting the first
components is invariant under permutation of the input list: the key
sequence of the sorted list is determined by the multiset of keys. -/
theorem sortedKeys_eq_of_perm (l1 l2 : List (String × String))
    (h : l1.Perm l2) :
    ((l1.mergeSort (fun a b => a.1 ≤ b.1)).map (fun p => p.1)) =
      ((l2.mergeSort (fun a b => a.1 ≤ b.1)).map (fun p => p.1)) := by
  have htrans : ∀ (a b c : String × String),
      decide (a.1 ≤ b.1) = true → decide (b.1 ≤ c.1) = true →
      decide (a.1 ≤ c.1) = true := fun a b c h1 h2 =>
    decide_eq_true (le_trans (of_decide_eq_true h1) (of_decide_eq_true h2))
  have htotal : ∀ (a b : String × String),
      (decide (a.1 ≤ b.1) || decide (b.1 ≤ a.1)) = true := by
    intro a b
    rcases le_total a.1 b.1 with h' | h'
    · simp only [decide_eq_true h', Bool.true_or]
    · simp only [decide_eq_true h', Bool.or_true]
  have hp1 := List.sorted_mergeSort htrans htotal l1
  have hp2 := List.sorted_mergeSort htrans htotal l2
  apply List.eq_of_perm_of_sorted (r := (fun a b : String => a ≤ b))
  · exact ((List.mergeSort_perm l1 _).map _).trans
      ((h.map _).trans ((List.mergeSort_perm l2 _).map _).symm)
  · exact List.Pairwise.map _ (fun a b hab => of_decide_eq_true hab) hp1
  · exact List.Pairwise.map _ (fun a b hab => of_decide_eq_true hab) hp2

/-- Appending a `(key, value)` entry makes `lookup key` succeed. -/
theorem lookup_append_single_isSome (tbl : List (String × β)) (k : String)
    (v : β) : ((tbl ++ [(k, v)]).lookup k).isSome := by
  induction tbl with
  | nil => simp [List.lookup]
  | cons a t ih =>
    rw [List.cons_append, List.lookup]
    split
    · rfl
    · exact ih

/-- After `registerOnce tbl k v` the key `k` is always present. -/
theorem lookup_registerOnce_isSome (tbl : List (String × β)) (k : String)
    (v : β) : ((registerOnce tbl k v).lookup k).isSome := by
  unfold registerOnce
  split
  · assumption
  · exact lookup_append_single_isSome tbl k v

/-- A second registration under a key already registered is a no-op,
whatever value it carries: the table keeps the first entry. -/
theorem registerOnce_registerOnce (tbl : List (String × β)) (k : String)
    (v w : β) : registerOnce (registerOnce tbl k v) k w =
      registerOnce tbl k v := by
  rw [registerOnce]
  rw [if_pos (lookup_registerOnce_isSome tbl k v)]

/-- C3.  Two `or` nodes whose surviving item lists are permutations of
one another (both leaving at least two items) lower to the identical
composite type name, because the variant pairs are sorted by
identifier-safe name before the name is built; and registering the
second occurrence after the first is a no-op on the run-scoped table:
the already-registered composite is reused, no duplicate is added. -/
theorem C3_order_insensitive_naming_and_reuse :
    ∀ (cfg : golang.Ctx) (items1 items2 : List Ty)
      (x1 y1 : Ty) (r1 : List Ty) (x2 y2 : Ty) (r2 : List Ty)
      (tbl : List (String × golang.OrTypeInfo)),
      items1.Perm items2 →
      items1.filter (golang.orItemKeep cfg) = x1 :: y1 :: r1 →
      items2.filter (golang.orItemKeep cfg) = x2 :: y2 :: r2 →
      golang.getOrType cfg (Ty.or items1) =
          golang.getOrType cfg (Ty.or items2) ∧
        golang.getOrRegister cfg (Ty.or items2)
            (golang.getOrRegister cfg (Ty.or items1) tbl) =
          golang.getOrRegister cfg (Ty.or items1) tbl := by
  intro cfg items1 items2 x1 y1 r1 x2 y2 r2 tbl hperm hf1 hf2
  have hpf := hperm.filter (golang.orItemKeep cfg)
  rw [hf1, hf2] at hpf
  have hpairs : (golang.goPairs cfg (x1 :: y1 :: r1)).Perm
      (golang.goPairs cfg (x2 :: y2 :: r2)) := by
    rw [golang.goPairs_eq_map, golang.goPairs_eq_map]
    exact hpf.map _
  have hkeys := sortedKeys_eq_of_perm _ _ hpairs
  constructor
  · rw [golang.getOrType_filter_big _ _ _ _ _ hf1,
      golang.getOrType_filter_big _ _ _ _ _ hf2, hkeys]
  · rw [golang.getOrRegister_filter_big _ _ _ _ _ _ hf1,
      golang.getOrRegister_filter_big _ _ _ _ _ _ hf2, hkeys]
    exact registerOnce_registerOnce _ _ _ _

/-- Witness for C3: the unions `[integer, string]` and `[string,
integer]` get the same name, and the second registration on a table
already holding the first changes nothing. -/
theorem C3_witness :
    golang.getOrType (golang.Ctx.mk false (fun _ => false))
        (Ty.or [Ty.base "integer", Ty.base "string"]) =
      golang.getOrType (golang.Ctx.mk false (fun _ => false))
        (Ty.or [Ty.base "string", Ty.base "integer"]) ∧
    golang.getOrRegister (golang.Ctx.mk false (fun _ => false))
        (Ty.or [Ty.base "string", Ty.base "integer"])
        (golang.getOrRegister (golang.Ctx.mk false (fun _ => false))
          (Ty.or [Ty.base "integer", Ty.base "string"]) []) =
      golang.getOrRegister (golang.Ctx.mk false (fun _ => false))
        (Ty.or [Ty.base "integer", Ty.base "string"]) [] :=
  C3_order_insensitive_naming_and_reuse
    (golang.Ctx.mk false (fun _ => false))
    [Ty.base "integer", Ty.base "string"]
    [Ty.base "string", Ty.base "integer"]
    (Ty.base "integer") (Ty.base "string") []
    (Ty.base "string") (Ty.base "integer") [] []
    (List.Perm.swap (Ty.base "string") (Ty.base "integer") [])
    (by rfl) (by rfl)

/-- C2 counterexample.  The Go backend does not deduplicate sorted pairs
whose identifier-safe names collide, and does not unwrap a single
would-be survivor: the union `URI | string`, whose two items both get
the identifier name `string` and the Go type `string`, lowers to the
wrapper name `Or_string_string` instead of `string`, refuting the claim
for "every union lowered by any of the backends". -/
theorem C2_counterexample :
    golang.getOrType (golang.Ctx.mk false (fun _ => false))
        (Ty.or [Ty.base "URI", Ty.base "string"]) = "Or_string_string" ∧
    ("Or_string_string" : String) ≠ "string" := by
  constructor
  · rw [golang.getOrType_filter_big _ _ _ _ _ (by rfl)]
    simp only [List.filter_nil]
    have hpairs : golang.goPairs (golang.Ctx.mk false (fun _ => false))
        [Ty.base "URI", Ty.base "string"] =
        [("string", "string"), ("string", "string")] := by
      rw [golang.goPairs_eq_map]
      simp only [List.map_cons, List.map_nil, golang.typeNameForIdent,
        golang.goType_base]
      rfl
    rw [hpairs, List.mergeSort_of_sorted (by simp)]
    rfl
  · decide

/-- On a list sorted by first component, compacting away consecutive
elements with equal first component leaves, past a kept element `last`,
only elements whose first component is strictly above `last.1`, pairwise
distinct. -/
theorem compactTail_sorted_distinct (last : String × String)
    (l : List (String × String))
    (h : List.Pairwise (fun a b => decide (a.1 ≤ b.1) = true) (last :: l)) :
    List.Pairwise (fun a b : String × String => a.1 ≠ b.1)
        (compactTail (fun a b => a.1 == b.1) last l) ∧
      ∀ m ∈ compactTail (fun a b => a.1 == b.1) last l,
        last.1 ≠ m.1 ∧ last.1 ≤ m.1 := by
  induction l generalizing last with
  | nil => simp [compactTail]
  | cons b rest ih =>
    rw [List.pairwise_cons] at h
    obtain ⟨hlast, hbr⟩ := h
    rw [compactTail]
    by_cases heq : last.1 = b.1
    · rw [if_pos (by simpa using heq)]
      apply ih last
      rw [List.pairwise_cons]
      exact ⟨fun m hm => hlast m (List.mem_cons_of_mem _ hm),
        (List.pairwise_cons.mp hbr).2⟩
    · rw [if_neg (by simpa using heq)]
      have hb := ih b hbr
      have hlb : last.1 ≤ b.1 :=
        of_decide_eq_true (hlast b (List.mem_cons_self _ _))
      refine ⟨?_, ?_⟩
      · rw [List.pairwise_cons]
        exact ⟨fun m hm => (hb.2 m hm).1, hb.1⟩
      · intro m hm
        rcases List.mem_cons.mp hm with hmb | hm'
        · subst hmb; exact ⟨heq, hlb⟩
        · have h2 := hb.2 m hm'
          have hlt : last.1 < b.1 := lt_of_le_of_ne hlb heq
          exact ⟨ne_of_lt (lt_of_lt_of_le hlt h2.2),
            le_of_lt (lt_of_lt_of_le hlt h2.2)⟩

/-- Compacting a list sorted by first component yields pairwise-distinct
first components. -/
theorem compactBy_sorted_distinct (l : List (String × String))
    (h : List.Pairwise (fun a b => decide (a.1 ≤ b.1) = true) l) :
    List.Pairwise (fun a b : String × String => a.1 ≠ b.1)
      (compactBy (fun a b => a.1 == b.1) l) := by
  cases l with
  | nil => simp [compactBy]
  | cons a rest =>
    rw [compactBy]
    have hc := compactTail_sorted_distinct a rest h
    rw [List.pairwise_cons]
    exact ⟨fun m hm => (hc.2 m hm).1, hc.1⟩

/-- C2 amended.  The deduplication-and-unwrap behaviour holds for the
Groovy backend only: there, in the wrapper branch, the sorted pairs are
compacted so that the surviving identifier-safe names are pairwise
distinct (colliding scalars yield one variant), and whenever compaction
leaves exactly one pair that pair's target type is returned directly
with no wrapper; the Go and Kotlin backends skip this step, as the
counterexample shows. -/
theorem C2_amended_groovy_dedup :
    ∀ (cfg : groovy.Ctx) (items : List Ty) (x y : Ty) (rest : List Ty),
      items.filter (groovy.orItemKeep cfg) = x :: y :: rest →
      List.Pairwise (fun a b : String × String => a.1 ≠ b.1)
          (compactBy (fun a b => a.1 == b.1)
            ((groovy.grPairs cfg (x :: y :: rest)).mergeSort
              (fun a b => a.1 ≤ b.1))) ∧
        ∀ p, compactBy (fun a b => a.1 == b.1)
            ((groovy.grPairs cfg (x :: y :: rest)).mergeSort
              (fun a b => a.1 ≤ b.1)) = [p] →
          groovy.getOrType cfg (Ty.or items) = p.2 := by
  intro cfg items x y rest hf
  constructor
  · apply compactBy_sorted_distinct
    apply List.sorted_mergeSort
    · exact fun a b c h1 h2 => decide_eq_true
        (le_trans (of_decide_eq_true h1) (of_decide_eq_true h2))
    · intro a b
      rcases le_total a.1 b.1 with h' | h'
      · simp only [decide_eq_true h', Bool.true_or]
      · simp only [decide_eq_true h', Bool.or_true]
  · intro p hp
    rw [groovy.groovyOrType_filter_big _ _ _ _ _ hf, hp]

/-- Witness for C2 amended: in the Groovy backend the union
`URI | string` (two schema scalars with the same target scalar) lowers
directly to `String`: one variant survives deduplication and is
returned with no wrapper. -/
theorem C2_amended_witness :
    groovy.getOrType (groovy.Ctx.mk false (fun _ => false) (fun _ => none))
      (Ty.or [Ty.base "URI", Ty.base "string"]) = "String" := by
  have h := C2_amended_groovy_dedup
    (groovy.Ctx.mk false (fun _ => false) (fun _ => none))
    [Ty.base "URI", Ty.base "string"]
    (Ty.base "URI") (Ty.base "string") [] (by rfl)
  apply h.2 ("String", "String")
  have hpairs : groovy.grPairs
      (groovy.Ctx.mk false (fun _ => false) (fun _ => none))
      [Ty.base "URI", Ty.base "string"] =
      [("String", "String"), ("String", "String")] := by
    rw [groovy.grPairs, groovy.grPairs, groovy.grPairs]
    simp only [groovy.typeNameForIdent, groovy.groovyType,
      groovy.groovyTypeInner, Ty.IsOptional, Ty.kind]
    rfl
  rw [hpairs, List.mergeSort_of_sorted (by simp)]
  rfl

/-- C8.  A map node whose value is an array type lowers by synthesizing
a wrapper message named `MapArray_` plus the proto message name derived
from the wrapped element type, whose body is a single `repeated`
field of the element type; the wrapper is memoized under that name in
the run-scoped table (`registerOnce`), and the map lowers to
`map<key, wrapperName>`.  Moreover a later occurrence of the same shape
against a table already holding the wrapper (one whose element
conversion leaves the table untouched) returns the same map type and
leaves the table unchanged: the one wrapper is reused. -/
theorem C8_map_array_value_wrapper :
    ∀ (ctx : proto.Ctx) (kname : String) (elem : Option Ty)
      (w : proto.Wrappers) (kstr elemType : String) (w1 : proto.Wrappers),
      proto.convertBaseType kname = .ok kstr →
      proto.convertType ctx elem w = (.ok elemType, w1) →
      (proto.convertType ctx
          (some (Ty.mapT (some (Ty.base kname)) (some (Ty.array elem)))) w =
        (.ok ("map<" ++ kstr ++ ", " ++
            ("MapArray_" ++
              proto.toProtoMessageName (proto.dotsToUnderscores elemType)) ++
            ">"),
          registerOnce w1
            ("MapArray_" ++
              proto.toProtoMessageName (proto.dotsToUnderscores elemType))
            ("message " ++
              ("MapArray_" ++
                proto.toProtoMessageName (proto.dotsToUnderscores elemType)) ++
              " \x7b\n  repeated " ++ elemType ++ " items = 1;\n\x7d\n"))) ∧
      (∀ w2 : proto.Wrappers,
        proto.convertType ctx elem w2 = (.ok elemType, w2) →
        ((w2.lookup ("MapArray_" ++
            proto.toProtoMessageName
              (proto.dotsToUnderscores elemType))).isSome) →
        proto.convertType ctx
            (some (Ty.mapT (some (Ty.base kname)) (some (Ty.array elem)))) w2 =
          (.ok ("map<" ++ kstr ++ ", " ++
              ("MapArray_" ++
                proto.toProtoMessageName (proto.dotsToUnderscores elemType)) ++
              ">"), w2)) := by
  intro ctx kname elem w kstr elemType w1 hk he
  constructor
  · rw [proto.convertType]
    simp only [hk, he]
  · intro w2 he2 hmem
    rw [proto.convertType]
    simp only [hk, he2]
    rw [registerOnce, if_pos hmem]

/-- Witness for C8: `map[string][]string` lowers to
`map<string, MapArray_String>` and registers the wrapper message once. -/
theorem C8_witness :
    proto.convertType (proto.Ctx.mk (fun n => n) (fun _ => true))
        (some (Ty.mapT (some (Ty.base "string"))
          (some (Ty.array (some (Ty.base "string")))))) [] =
      (.ok "map<string, MapArray_String>",
        [("MapArray_String",
          "message MapArray_String \x7b\n  repeated string items = 1;\n\x7d\n")]) := by
  have h := C8_map_array_value_wrapper
    (proto.Ctx.mk (fun n => n) (fun _ => true))
    "string" (some (Ty.base "string")) [] "string" "string" []
    (by rfl) (by rw [proto.convertType]; rfl)
  rw [h.1]
  rfl

/-- C6.  Dependency resolution terminates on reference cycles — the
embedded walk is a total function whose termination proof rests on the
visited set growing before dependencies are explored — and on the
two-structure model where `A` references `B` and `B` references `A`,
resolving the requested set containing `A` returns a set whose members
are exactly `A` and `B`. -/
theorem C6_cycle_terminates_with_closure :
    generator.ResolveDeps
        (Model.mk
          [Structure.mk "A"
            [Property.mk "b" (some (Ty.reference "B")) false false] [] [] false,
           Structure.mk "B"
            [Property.mk "a" (some (Ty.reference "A")) false false] [] [] false]
          [] [])
        (some ["A"]) false = some ["B", "A"] ∧
    ∀ x : String, (["B", "A"] : List String).contains x = true ↔
      (x = "A" ∨ x = "B") := by
  constructor
  · simp only [generator.ResolveDeps, Option.some.injEq]
    rw [generator.resolveLoop, generator.resolveLoop]
    simp [generator.collectDeps, generator.collectTypeRefs,
      generator.collectProps, generator.collectRefsList, List.find?]
  · intro x
    simp [List.contains_cons]
    tauto

/-- C9 counterexample.  The identifier-safe naming function is not
injective over type nodes: two different nested unions both receive the
fixed placeholder name `Union` while denoting different lowered types
(`Or_A_B` versus `Or_C_D`), refuting "two type nodes receive the same
identifier-safe name only if they denote the same type". -/
theorem C9_counterexample :
    golang.typeNameForIdent
        (some (Ty.or [Ty.reference "A", Ty.reference "B"])) =
      golang.typeNameForIdent
        (some (Ty.or [Ty.reference "C", Ty.reference "D"])) ∧
    golang.goType (golang.Ctx.mk false (fun _ => false))
      (some (Ty.or [Ty.reference "A", Ty.reference "B"])) = "Or_A_B" ∧
    golang.goType (golang.Ctx.mk false (fun _ => false))
      (some (Ty.or [Ty.reference "C", Ty.reference "D"])) = "Or_C_D" ∧
    ("Or_A_B" : String) ≠ "Or_C_D" := by
  refine ⟨by simp [golang.typeNameForIdent], ?_, ?_, by decide⟩
  · rw [golang.goType_or_not_optional _ _
      (by simp [Ty.IsOptional, Ty.kind, Ty.items, Ty.isNullBase])]
    rw [golang.getOrType_filter_big _ _ _ _ _ (by rfl)]
    simp only [List.filter_nil]
    have hpairs : golang.goPairs (golang.Ctx.mk false (fun _ => false))
        [Ty.reference "A", Ty.reference "B"] = [("A", "A"), ("B", "B")] := by
      rw [golang.goPairs_eq_map]
      simp only [List.map_cons, List.map_nil, golang.typeNameForIdent,
        golang.goType_reference]
      rfl
    rw [hpairs, List.mergeSort_of_sorted (by simp; decide)]
    rfl
  · rw [golang.goType_or_not_optional _ _
      (by simp [Ty.IsOptional, Ty.kind, Ty.items, Ty.isNullBase])]
    rw [golang.getOrType_filter_big _ _ _ _ _ (by rfl)]
    simp only [List.filter_nil]
    have hpairs : golang.goPairs (golang.Ctx.mk false (fun _ => false))
        [Ty.reference "C", Ty.reference "D"] = [("C", "C"), ("D", "D")] := by
      rw [golang.goPairs_eq_map]
      simp only [List.map_cons, List.map_nil, golang.typeNameForIdent,
        golang.goType_reference]
      rfl
    rw [hpairs, List.mergeSort_of_sorted (by simp; decide)]
    rfl

/-- C9 amended.  The identifier-safe naming function is injective on
denotations only outside the anonymous placeholder kinds: among base
nodes and among reference nodes an equal identifier-safe name forces an
equal lowered Go type (for those kinds the name coincides with the
lowered type), and the array prefix is cancellative (equal array names
force equal element names); for literal/union/intersection/tuple nodes
the fixed placeholder names collide between distinct types, as the
counterexample shows. -/
theorem C9_amended_injectivity :
    (∀ (cfg : golang.Ctx) (n1 n2 : String),
      golang.typeNameForIdent (some (Ty.base n1)) =
        golang.typeNameForIdent (some (Ty.base n2)) →
      golang.goType cfg (some (Ty.base n1)) =
        golang.goType cfg (some (Ty.base n2))) ∧
    (∀ (cfg : golang.Ctx) (n1 n2 : String),
      golang.typeNameForIdent (some (Ty.reference n1)) =
        golang.typeNameForIdent (some (Ty.reference n2)) →
      golang.goType cfg (some (Ty.reference n1)) =
        golang.goType cfg (some (Ty.reference n2))) ∧
    (∀ (e1 e2 : Option Ty),
      golang.typeNameForIdent (some (Ty.array e1)) =
        golang.typeNameForIdent (some (Ty.array e2)) →
      golang.typeNameForIdent e1 = golang.typeNameForIdent e2) := by
  refine ⟨?_, ?_, ?_⟩
  · intro cfg n1 n2 h
    rw [golang.goType_base, golang.goType_base]
    simpa [golang.typeNameForIdent] using h
  · intro cfg n1 n2 h
    rw [golang.goType_reference, golang.goType_reference]
    simpa [golang.typeNameForIdent] using h
  · intro e1 e2 h
    simp only [golang.typeNameForIdent] at h
    exact string_append_left_cancel h

/-- Witness for C9 amended: the base types URI and string share the
identifier-safe name `string` and indeed lower to the same Go type. -/
theorem C9_amended_witness :
    (golang.typeNameForIdent (some (Ty.base "URI")) =
      golang.typeNameForIdent (some (Ty.base "string"))) ∧
    golang.goType (golang.Ctx.mk false (fun _ => false))
        (some (Ty.base "URI")) =
      golang.goType (golang.Ctx.mk false (fun _ => false))
        (some (Ty.base "string")) :=
  ⟨by simp [golang.typeNameForIdent, golang.goBaseTypeName],
   C9_amended_injectivity.1 (golang.Ctx.mk false (fun _ => false))
    "URI" "string"
    (by simp [golang.typeNameForIdent, golang.goBaseTypeName])⟩

/-- C5.  Parsing a type node fails exactly when the document is not a
well-shaped type-node object: the value must be a JSON object (a
malformed or non-object document fails), its kind tag must be one of
base|reference|array|map|literal|stringLiteral|or|and|tuple (an
unrecognised kind fails with `unknown type kind`), and the kind-specific
second-pass decode of the shared `value` payload (a map's key/value pair
of types, a literal's inline property list) must decode; for every
recognised kind with a well-shaped payload, parsing succeeds.
`parse.wellFormedType` spells out those conditions from the spec's
wording; the theorem states the exact equivalence. -/
theorem C5_unmarshal_fails_exactly_on_malformed (j : Json) :
    (∃ t, parse.unmarshalType j = .ok t) ↔ parse.wellFormedType j = true := by
  have h := parse.okB_unmarshalType j
  constructor
  · intro hex
    obtain ⟨t, ht⟩ := hex
    rw [ht] at h
    rw [← h]
    rfl
  · intro hwf
    rw [hwf] at h
    cases hu : parse.unmarshalType j with
    | error e => rw [hu] at h; exact absurd h (by simp [okB])
    | ok t => exact ⟨t, rfl⟩

/-- C7.  Dependency resolution never fails: a referenced name that
matches no structure and no type alias in the model (unknown names, and
enumeration names, which the walk never consults) is still added to the
visited set as an opaque entry — the walk pushes exactly the name and
explores nothing — and resolution completes normally (the embedded
`collectDeps` is a total function; the Go function has no error
return). -/
theorem C7_unknown_names_added_as_opaque (m : Model) (ip : Bool)
    (n : String) (v : List String)
    (hv : v.contains n = false)
    (hs : m.structures.find? (fun s => s.name == n) = none)
    (ha : m.typeAliases.find? (fun a => a.name == n) = none) :
    (generator.collectDeps m ip n v).1 = n :: v := by
  rw [generator.collectDeps]
  rw [hs, ha]
  have hnv : ¬ n ∈ v := by simpa using hv
  simp [hnv]

/-- Witness for C7: a model with one structure `Container` and no alias
or enumeration named `Unknown`; collecting `Unknown` over the visited set
`["Container"]` just pushes the name. -/
theorem C7_witness :
    (["Container"].contains "Unknown" = false) ∧
    ((Model.mk [Structure.mk "Container"
        [Property.mk "unknown" (some (Ty.reference "Unknown")) false false]
        [] [] false] [] []).structures.find?
          (fun s => s.name == "Unknown") = none) ∧
    ((Model.mk [Structure.mk "Container"
        [Property.mk "unknown" (some (Ty.reference "Unknown")) false false]
        [] [] false] [] []).typeAliases.find?
          (fun a => a.name == "Unknown") = none) ∧
    (generator.collectDeps
        (Model.mk [Structure.mk "Container"
          [Property.mk "unknown" (some (Ty.reference "Unknown")) false false]
          [] [] false] [] [])
        false "Unknown" ["Container"]).1 = ["Unknown", "Container"] :=
  ⟨by decide, by rfl, by rfl,
    C7_unknown_names_added_as_opaque _ false "Unknown" ["Container"]
      (by decide) (by rfl) (by rfl)⟩

/-- C10.  For every non-nil requested name set and every model, the set
returned by dependency resolution contains every requested name (each
name is marked visited immediately, whether or not it resolves to
anything in the model), and names are only ever added to the shared
visited set during the loop, never removed. -/
theorem C10_expanded_superset_of_requested :
    (∀ (m : Model) (ip : Bool) (names : List String) (x : String),
      x ∈ names → ∃ out, generator.ResolveDeps m (some names) ip = some out ∧
        out.contains x = true) ∧
    (∀ (m : Model) (ip : Bool) (names acc : List String) (x : String),
      acc.contains x = true →
        (generator.resolveLoop m ip names acc).contains x = true) := by
  constructor
  · intro m ip names x hx
    exact ⟨generator.resolveLoop m ip names [], rfl,
      generator.resolveLoop_mem m ip names [] x hx⟩
  · intro m ip names acc x hx
    exact generator.resolveLoop_mono m ip names acc x hx

/-- Witness for C10: the requested name `A` appears in the output over
the one-structure model, and an accumulated name survives the loop. -/
theorem C10_witness :
    ("A" ∈ ["A"] ∧
      ∃ out, generator.ResolveDeps (Model.mk [] [] []) (some ["A"]) false =
        some out ∧ out.contains "A" = true) ∧
    (["Z"].contains "Z" = true ∧
      (generator.resolveLoop (Model.mk [] [] []) false ["A"] ["Z"]).contains
        "Z" = true) :=
  ⟨⟨by decide, C10_expanded_superset_of_requested.1 (Model.mk [] [] [])
      false ["A"] "A" (by decide)⟩,
   ⟨by decide, C10_expanded_superset_of_requested.2 (Model.mk [] [] [])
      false ["A"] ["Z"] "Z" (by decide)⟩⟩
